import Mathlib

set_option maxRecDepth 8000

/-!
Verification development for the `pedietcalc` recipe macro calculator
(`src/main.rs`). The numeric type `f64` is modelled by `F64`: a finite
rational, `NaN`, or a signed infinity. Arithmetic on finite values is
exact rational arithmetic except for overflow: a result whose magnitude
reaches the IEEE round-to-nearest overflow threshold `2^1024 - 2^970`
becomes the signed infinity, as in Rust (rounding of in-range results to
53-bit precision is not modelled). The special values follow the IEEE
rules used by Rust (`NaN` propagates, comparisons with `NaN` are false).
Strings are Lean strings; Rust's `str::trim` is modelled with
`Char.isWhitespace`.
-/

/-- Model of a Rust `f64`: a finite value is an exact rational. -/
inductive F64 where
  | finite (q : ℚ)
  | nan
  | posInf
  | negInf
deriving DecidableEq

/-- Model of `f64::is_finite`. -/
def F64.isFinite : F64 → Bool
  | .finite _ => true
  | _ => false

/-- The rational carried by a finite value (0 for the special values). -/
def F64.toRat : F64 → ℚ
  | .finite q => q
  | _ => 0

/-- The exact magnitude at and beyond which IEEE round-to-nearest-even
takes a result out of the `f64` range: `2^1024 - 2^970`, the midpoint
between `f64::MAX` and `2^1024`. -/
def ovfThreshold : ℚ := 2 ^ 1024 - 2 ^ 970

/-- Pack an exact finite result into an `F64`, overflowing to a signed
infinity as IEEE round-to-nearest does; in-range results are kept exact. -/
def F64.ofRatRounded (q : ℚ) : F64 :=
  if q ≤ -ovfThreshold then .negInf
  else if ovfThreshold ≤ q then .posInf
  else .finite q

/-- Model of `f64` addition (exact on finite values up to overflow). -/
def F64.add : F64 → F64 → F64
  | .finite a, .finite b => .ofRatRounded (a + b)
  | .nan, _ => .nan
  | _, .nan => .nan
  | .posInf, .negInf => .nan
  | .negInf, .posInf => .nan
  | .posInf, _ => .posInf
  | _, .posInf => .posInf
  | .negInf, _ => .negInf
  | _, .negInf => .negInf

/-- Model of `f64` multiplication (exact on finite values up to
overflow). -/
def F64.mul : F64 → F64 → F64
  | .finite a, .finite b => .ofRatRounded (a * b)
  | .nan, _ => .nan
  | _, .nan => .nan
  | .posInf, .posInf => .posInf
  | .posInf, .negInf => .negInf
  | .negInf, .posInf => .negInf
  | .negInf, .negInf => .posInf
  | .posInf, .finite b => if b = 0 then .nan else if 0 < b then .posInf else .negInf
  | .finite a, .posInf => if a = 0 then .nan else if 0 < a then .posInf else .negInf
  | .negInf, .finite b => if b = 0 then .nan else if 0 < b then .negInf else .posInf
  | .finite a, .negInf => if a = 0 then .nan else if 0 < a then .negInf else .posInf

/-- Model of `f64` division (exact on finite values up to overflow; zero is
unsigned, so a nonzero finite value divided by zero gets the sign of the
numerator). -/
def F64.div : F64 → F64 → F64
  | .nan, _ => .nan
  | _, .nan => .nan
  | .finite a, .finite b =>
      if b = 0 then (if a = 0 then .nan else if 0 < a then .posInf else .negInf)
      else .ofRatRounded (a / b)
  | .finite _, .posInf => .finite 0
  | .finite _, .negInf => .finite 0
  | .posInf, .finite b => if 0 ≤ b then .posInf else .negInf
  | .negInf, .finite b => if 0 ≤ b then .negInf else .posInf
  | .posInf, _ => .nan
  | .negInf, _ => .nan

/-- Model of `f64::abs`. -/
def F64.abs : F64 → F64
  | .finite q => .finite |q|
  | .nan => .nan
  | _ => .posInf

/-- Model of the Rust comparison `x <= y` on `f64` (false when either side
is `NaN`). -/
def F64.le : F64 → F64 → Bool
  | .finite a, .finite b => decide (a ≤ b)
  | .nan, _ => false
  | _, .nan => false
  | .negInf, _ => true
  | _, .posInf => true
  | .posInf, _ => false
  | .finite _, .negInf => false

/-- Model of the Rust comparison `x < y` on `f64` (false when either side
is `NaN`). -/
def F64.lt : F64 → F64 → Bool
  | .finite a, .finite b => decide (a < b)
  | .nan, _ => false
  | _, .nan => false
  | .posInf, _ => false
  | _, .negInf => false
  | .negInf, _ => true
  | .finite _, .posInf => true

/-- Model of `f64::MIN_POSITIVE`, the smallest positive normal double. -/
def minPositive : ℚ := 1 / 2 ^ 1022

/-- Model of `sanitize_quantity`: finite values are clamped with
`value.max(0.0)`, non-finite values become `0.0`. -/
def sanitize_quantity : F64 → F64
  | .finite q => .finite (max q 0)
  | _ => .finite 0

/-- A value the sanitized totals pipeline can produce: `+∞` (overflow) or a
finite non-negative rational. -/
def NonNegOrInf (v : F64) : Prop :=
  v = .posInf ∨ ∃ q : ℚ, v = .finite q ∧ 0 ≤ q

/-- Whitespace trimming of a character list, modelling `str::trim`. -/
def trimChars (cs : List Char) : List Char :=
  ((cs.dropWhile Char.isWhitespace).reverse.dropWhile Char.isWhitespace).reverse

/-- Leading sign parsing used by Rust's `f64` grammar (`true` = negative). -/
def parseSign : List Char → Bool × List Char
  | '-' :: t => (true, t)
  | '+' :: t => (false, t)
  | s => (false, s)

/-- Greedy decimal-digit run parser: returns the accumulated value, the
number of digits consumed, and the rest of the input. -/
def parseDigitsAux : List Char → Nat → Nat → Nat × Nat × List Char
  | [], acc, cnt => (acc, cnt, [])
  | c :: t, acc, cnt =>
      if c.isDigit then parseDigitsAux t (acc * 10 + (c.toNat - 48)) (cnt + 1)
      else (acc, cnt, c :: t)

/-- Model of Rust's `str::parse::<f64>` (the `dec2flt` grammar): an optional
sign, then case-insensitive `inf`/`infinity`/`nan` or a decimal number with
at least one digit and an optional exponent. The numeric value is kept as an
exact rational instead of being rounded to the nearest double. -/
def parseF64 (s : List Char) : Option F64 :=
  let sr := parseSign s
  let neg := sr.1
  let low := sr.2.map Char.toLower
  if low = ['i', 'n', 'f'] ∨ low = ['i', 'n', 'f', 'i', 'n', 'i', 't', 'y'] then
    some (if neg then .negInf else .posInf)
  else if low = ['n', 'a', 'n'] then
    some .nan
  else
    let ir := parseDigitsAux sr.2 0 0
    let fr := match ir.2.2 with
      | '.' :: t => parseDigitsAux t 0 0
      | _ => (0, 0, ir.2.2)
    if ir.2.1 + fr.2.1 = 0 then none
    else
      let mant : ℚ := ((ir.1 : ℚ) * 10 ^ fr.2.1 + (fr.1 : ℚ)) / 10 ^ fr.2.1
      let signed : ℚ := if neg then -mant else mant
      match fr.2.2 with
      | [] => some (.finite signed)
      | c :: t =>
          if c = 'e' ∨ c = 'E' then
            let er := parseSign t
            let dr := parseDigitsAux er.2 0 0
            if dr.2.1 = 0 ∨ dr.2.2 ≠ [] then none
            else some (.finite (signed * 10 ^ (if er.1 then -(dr.1 : ℤ) else (dr.1 : ℤ))))
          else none

/-- Model of `parse_quantity`: trim, parse as `f64` with fallback `0.0`,
then sanitize. -/
def parse_quantity (raw : String) : F64 :=
  sanitize_quantity ((parseF64 (trimChars raw.data)).getD (.finite 0))

/-- The rational value of a parsed quantity. -/
def parseQRat (raw : String) : ℚ := (parse_quantity raw).toRat

/-- A decimal digit as a character. -/
def digitChar : Nat → Char
  | 0 => '0' | 1 => '1' | 2 => '2' | 3 => '3' | 4 => '4'
  | 5 => '5' | 6 => '6' | 7 => '7' | 8 => '8' | 9 => '9'
  | _ => '*'

/-- Most-significant-first decimal digits of a natural number. -/
def digitsBE (n : Nat) : List Char :=
  if n = 0 then ['0'] else ((Nat.digits 10 n).reverse.map digitChar)

/-- Left-pad a digit string with zeros to length `k`. -/
def padZeros (k : Nat) (ds : List Char) : List Char :=
  List.replicate (k - ds.length) '0' ++ ds

/-- Round a rational to the nearest integer, ties to even — the rounding
Rust's float `Display` applies when a precision is requested. -/
def rndHalfEven (q : ℚ) : ℤ :=
  let f := ⌊q⌋
  if q - f < 1 / 2 then f
  else if 1 / 2 < q - f then f + 1
  else if f % 2 = 0 then f else f + 1

/-- Characters of a finite value rendered with two decimal places, as in
the Rust format string with precision 2. -/
def fmt2Rat (q : ℚ) : List Char :=
  let m := (rndHalfEven (|q| * 100)).toNat
  (if q < 0 then ['-'] else []) ++ digitsBE (m / 100) ++ '.' :: padZeros 2 (digitsBE (m % 100))

/-- Model of the Rust formatting `{value:.2}` on an `f64`. -/
def fmt2 : F64 → String
  | .finite q => ⟨fmt2Rat q⟩
  | .nan => "NaN"
  | .posInf => "inf"
  | .negInf => "-inf"

/-- Model of `format_number`. -/
def format_number (value : F64) : String :=
  if value.abs.lt (.finite (1 / 200)) then "0.00" else fmt2 value

/-- Model of `format_input_value`. -/
def format_input_value (value : F64) : String :=
  if value.abs.lt (.finite (1 / 200)) then "" else fmt2 value

/-- Model of `format_ratio`. -/
def format_ratio (totals : F64 × F64 × F64) : String :=
  let energy := totals.2.1.add totals.2.2
  if energy.le (.finite minPositive) then "—" else fmt2 (totals.1.div energy)

/-- Model of the `Ingredient` struct: all quantity fields are raw text. -/
structure Ingredient where
  id : Nat
  name : String
  protein : String
  fat : String
  net_carbs : String
  servings : String
deriving DecidableEq

/-- Model of `Ingredient::empty`. -/
def Ingredient.empty (id : Nat) : Ingredient :=
  ⟨id, "", "", "", "", "1"⟩

/-- The reactive ledger state: the `ingredients` signal plus the `next_id`
counter signal. -/
structure LedgerState where
  items : List Ingredient
  nextId : Nat
deriving DecidableEq

/-- Model of the `add_ingredient` closure: mint `next_id`, bump the counter,
push an empty ingredient. -/
def add_ingredient (st : LedgerState) : LedgerState :=
  ⟨st.items ++ [Ingredient.empty st.nextId], st.nextId + 1⟩

/-- Model of the `remove_ingredient` closure: retain the other rows, and if
the ledger became empty, mint a fresh empty row from the counter. -/
def remove_ingredient (st : LedgerState) (id : Nat) : LedgerState :=
  if (st.items.filter (fun item => item.id != id)).isEmpty then
    ⟨[Ingredient.empty st.nextId], st.nextId + 1⟩
  else ⟨st.items.filter (fun item => item.id != id), st.nextId⟩

/-- Model of `update_ingredient`: mutate the first row with the given id,
silently doing nothing when it is absent. -/
def updateFirst (id : Nat) (f : Ingredient → Ingredient) : List Ingredient → List Ingredient
  | [] => []
  | i :: t => if i.id = id then f i :: t else i :: updateFirst id f t

/-- Model of `update_ingredient` on the ledger state. -/
def update_ingredient (st : LedgerState) (id : Nat) (f : Ingredient → Ingredient) : LedgerState :=
  ⟨updateFirst id f st.items, st.nextId⟩

/-- One step of the `totals` memo loop in `App`. -/
def totalsStep (acc : F64 × F64 × F64) (item : Ingredient) : F64 × F64 × F64 :=
  let servings := parse_quantity item.servings
  (acc.1.add ((parse_quantity item.protein).mul servings),
   acc.2.1.add ((parse_quantity item.fat).mul servings),
   acc.2.2.add ((parse_quantity item.net_carbs).mul servings))

/-- Model of the `totals` memo in `App`: fold the accumulation loop over the
rows in ledger order, starting from `(0.0, 0.0, 0.0)`. -/
def computeTotals (items : List Ingredient) : F64 × F64 × F64 :=
  items.foldl totalsStep (.finite 0, .finite 0, .finite 0)

/-- Per-row totals, as computed by the per-card closures
(`per_recipe_protein` and friends): per-serving value times servings. -/
def rowTotals (item : Ingredient) : F64 × F64 × F64 :=
  ((parse_quantity item.protein).mul (parse_quantity item.servings),
   (parse_quantity item.fat).mul (parse_quantity item.servings),
   (parse_quantity item.net_carbs).mul (parse_quantity item.servings))

/-- Element-wise sum of a list of total triples, in list order. -/
def sumTriples (ts : List (F64 × F64 × F64)) : F64 × F64 × F64 :=
  ts.foldl (fun a t => (a.1.add t.1, a.2.1.add t.2.1, a.2.2.add t.2.2))
    (.finite 0, .finite 0, .finite 0)

/-- Model of the `initial_next_id` computation in `App`: one more than the
largest ingredient id, or 1 when the list is empty. -/
def maxIdOf : List Ingredient → Nat
  | [] => 0
  | i :: t => max i.id (maxIdOf t)

/-- Model of `initial_next_id` (`max().map(|m| m + 1).unwrap_or(1)`). -/
def initial_next_id : List Ingredient → Nat
  | [] => 1
  | i :: t => maxIdOf (i :: t) + 1

/-- A ledger operation: the two closures that mint or delete rows. -/
inductive LedgerOp where
  | add
  | remove (id : Nat)

/-- Apply one ledger operation. -/
def applyOp (st : LedgerState) : LedgerOp → LedgerState
  | .add => add_ingredient st
  | .remove id => remove_ingredient st id

/-- Apply a sequence of ledger operations in order. -/
def applyOps (st : LedgerState) (ops : List LedgerOp) : LedgerState :=
  ops.foldl applyOp st

/-- The id-discipline invariant of the ledger: ids are pairwise distinct and
strictly below the counter. -/
def LedgerInv (st : LedgerState) : Prop :=
  st.items.Pairwise (fun a b => a.id ≠ b.id) ∧ ∀ i ∈ st.items, i.id < st.nextId

/-- Model of the `IngredientPayload` struct (numeric fields are `f64`). -/
structure IngredientPayload where
  id : Nat
  name : String
  protein : F64
  fat : F64
  net_carbs : F64
  servings : F64
deriving DecidableEq

/-- Model of the `RecipePayload` struct. -/
structure RecipePayload where
  name : Option String
  ingredients : List IngredientPayload
deriving DecidableEq

/-- The per-ingredient payload built inside `encode_recipe`. -/
def ingredientToPayload (i : Ingredient) : IngredientPayload :=
  ⟨i.id, i.name, parse_quantity i.protein, parse_quantity i.fat,
   parse_quantity i.net_carbs, parse_quantity i.servings⟩

/-- Model of the `From<IngredientPayload> for Ingredient` conversion. -/
def ingredientOfPayload (p : IngredientPayload) : Ingredient :=
  ⟨p.id, p.name, format_input_value p.protein, format_input_value p.fat,
   format_input_value p.net_carbs, format_input_value p.servings⟩

/-!
Codec definitions: the JSON document layout serde_json produces for
`RecipePayload` (field order as declared, `net_carbs` in snake case, the
name serialized as `null` when absent), UTF-8 byte encoding, and
padding-free base64url. The parser half models `serde_json::from_slice`
restricted to the grammar the serializer emits, which is how it is used
through `decode_recipe`.
-/

/-- Lowercase hexadecimal digit, as used by the JSON string escaper. -/
def hexDigit : Nat → Char
  | 0 => '0' | 1 => '1' | 2 => '2' | 3 => '3' | 4 => '4' | 5 => '5' | 6 => '6' | 7 => '7'
  | 8 => '8' | 9 => '9' | 10 => 'a' | 11 => 'b' | 12 => 'c' | 13 => 'd' | 14 => 'e'
  | _ => 'f'

/-- Hexadecimal digit value of a character, if any. -/
def hexVal? (c : Char) : Option Nat :=
  if c.isDigit then some (c.toNat - 48)
  else if 'a' ≤ c ∧ c ≤ 'f' then some (c.toNat - 87)
  else if 'A' ≤ c ∧ c ≤ 'F' then some (c.toNat - 55)
  else none

/-- JSON string escaping of one character, as serde_json performs it. -/
def escapeChar (c : Char) : List Char :=
  if c = '"' then ['\\', '"']
  else if c = '\\' then ['\\', '\\']
  else if c.toNat < 32 then
    if c.toNat = 8 then ['\\', 'b']
    else if c.toNat = 9 then ['\\', 't']
    else if c.toNat = 10 then ['\\', 'n']
    else if c.toNat = 12 then ['\\', 'f']
    else if c.toNat = 13 then ['\\', 'r']
    else ['\\', 'u', '0', '0', hexDigit (c.toNat / 16), hexDigit (c.toNat % 16)]
  else [c]

/-- Characters of a JSON string literal. -/
def printJsonString (s : String) : List Char :=
  '"' :: (s.data.map escapeChar).flatten ++ ['"']

/-- Strip the factor `p` from `n` (with fuel), returning the multiplicity
and the remaining cofactor. -/
def stripFac (p : Nat) : Nat → Nat → Nat × Nat
  | 0, n => (0, n)
  | fuel + 1, n =>
      if 2 ≤ p ∧ p ∣ n ∧ n ≠ 0 then
        ((stripFac p fuel (n / p)).1 + 1, (stripFac p fuel (n / p)).2)
      else (0, n)

/-- An exponent `k` with `d ∣ 10 ^ k`, when the denominator `d` has no
prime factor other than 2 and 5. -/
def pow10k? (d : Nat) : Option Nat :=
  let r2 := stripFac 2 d d
  let r5 := stripFac 5 r2.2 r2.2
  if r5.2 = 1 then some (max r2.1 r5.1) else none

/-- Shortest exact decimal rendering of a decimal rational, in the style of
the Ryu output serde_json emits for a double (integers get one trailing
zero). Rationals whose denominator has a prime factor other than 2 and 5
cannot arise from `parse_quantity`; to keep the function total they render
as "0.0". -/
def ratToJsonChars (q : ℚ) : List Char :=
  (if q < 0 then ['-'] else []) ++
    (match pow10k? |q|.den with
     | some k0 =>
         let k := max k0 1
         let N := |q|.num.toNat * (10 ^ k / |q|.den)
         digitsBE (N / 10 ^ k) ++ '.' :: padZeros k (digitsBE (N % 10 ^ k))
     | none => ['0', '.', '0'])

/-- JSON rendering of an `f64` payload value (serde_json writes non-finite
doubles as null). -/
def printF64Json : F64 → List Char
  | .finite q => ratToJsonChars q
  | _ => ['n', 'u', 'l', 'l']

/-- JSON object for one ingredient payload, fields in declaration order. -/
def printIngredient (i : IngredientPayload) : List Char :=
  '{' :: ("\"id\":".data ++ digitsBE i.id ++
    ",\"name\":".data ++ printJsonString i.name ++
    ",\"protein\":".data ++ printF64Json i.protein ++
    ",\"fat\":".data ++ printF64Json i.fat ++
    ",\"net_carbs\":".data ++ printF64Json i.net_carbs ++
    ",\"servings\":".data ++ printF64Json i.servings ++ ['}'])

/-- Comma-separated JSON array body of ingredient objects. -/
def printIngList : List IngredientPayload → List Char
  | [] => []
  | i :: t => printIngredient i ++ (t.map (fun j => ',' :: printIngredient j)).flatten

/-- JSON document for a recipe payload, as serde_json serializes it. -/
def printPayload (p : RecipePayload) : List Char :=
  '{' :: ("\"name\":".data ++
    (match p.name with
     | none => ['n', 'u', 'l', 'l']
     | some s => printJsonString s) ++
    ",\"ingredients\":[".data ++ printIngList p.ingredients ++ [']', '}'])

/-- UTF-8 encoding of one character. -/
def utf8EncodeChar (c : Char) : List Nat :=
  if c.toNat < 128 then [c.toNat]
  else if c.toNat < 2048 then [192 + c.toNat / 64, 128 + c.toNat % 64]
  else if c.toNat < 65536 then
    [224 + c.toNat / 4096, 128 + c.toNat / 64 % 64, 128 + c.toNat % 64]
  else
    [240 + c.toNat / 262144, 128 + c.toNat / 4096 % 64, 128 + c.toNat / 64 % 64,
     128 + c.toNat % 64]

/-- UTF-8 encoding of a character list: the bytes serde_json's `to_vec`
hands to the base64 encoder. -/
def utf8Encode (cs : List Char) : List Nat :=
  (cs.map utf8EncodeChar).flatten

/-- UTF-8 decoding (permissive: continuation-byte shape is checked, while
overlong forms are tolerated — decoding is only ever applied through
`decode_recipe`, whose guarantees here concern the encoder's output). -/
def utf8Decode : List Nat → Option (List Char)
  | [] => some []
  | b :: rest =>
      if b < 128 then (utf8Decode rest).map (fun cs => Char.ofNat b :: cs)
      else if b < 192 then none
      else if b < 224 then
        match rest with
        | [] => none
        | b2 :: r =>
            if 128 ≤ b2 ∧ b2 < 192 then
              (utf8Decode r).map (fun cs => Char.ofNat ((b - 192) * 64 + (b2 - 128)) :: cs)
            else none
      else if b < 240 then
        match rest with
        | [] => none
        | b2 :: r2 =>
            match r2 with
            | [] => none
            | b3 :: r =>
                if (128 ≤ b2 ∧ b2 < 192) ∧ (128 ≤ b3 ∧ b3 < 192) then
                  (utf8Decode r).map (fun cs =>
                    Char.ofNat (((b - 224) * 64 + (b2 - 128)) * 64 + (b3 - 128)) :: cs)
                else none
      else if b < 248 then
        match rest with
        | [] => none
        | b2 :: r2 =>
            match r2 with
            | [] => none
            | b3 :: r3 =>
                match r3 with
                | [] => none
                | b4 :: r =>
                    if (128 ≤ b2 ∧ b2 < 192) ∧ (128 ≤ b3 ∧ b3 < 192)
                        ∧ (128 ≤ b4 ∧ b4 < 192) then
                      (utf8Decode r).map (fun cs =>
                        Char.ofNat ((((b - 240) * 64 + (b2 - 128)) * 64 + (b3 - 128)) * 64
                          + (b4 - 128)) :: cs)
                    else none
      else none

/-- The URL-safe base64 alphabet. -/
def b64Alphabet : List Char :=
  "ABCDEFGHIJKLMNOPQRSTUVWXYZabcdefghijklmnopqrstuvwxyz0123456789-_".data

/-- Symbol for a 6-bit group. -/
def b64Char (i : Nat) : Char := b64Alphabet.getD i 'A'

/-- Value of a base64url symbol, if valid. -/
def b64CharVal (c : Char) : Option Nat :=
  if b64Alphabet.indexOf c < 64 then some (b64Alphabet.indexOf c) else none

/-- Padding-free base64url encoding of a byte list. -/
def b64encode : List Nat → List Char
  | [] => []
  | [b1] => [b64Char (b1 / 4), b64Char (b1 % 4 * 16)]
  | [b1, b2] => [b64Char (b1 / 4), b64Char (b1 % 4 * 16 + b2 / 16), b64Char (b2 % 16 * 4)]
  | b1 :: b2 :: b3 :: rest =>
      b64Char (b1 / 4) :: b64Char (b1 % 4 * 16 + b2 / 16) ::
        b64Char (b2 % 16 * 4 + b3 / 64) :: b64Char (b3 % 64) :: b64encode rest

/-- Padding-free base64url decoding, rejecting foreign symbols, impossible
lengths and non-zero trailing bits, as the base64 crate's engine does. -/
def b64decode : List Char → Option (List Nat)
  | [] => some []
  | [_] => none
  | [c1, c2] =>
      match b64CharVal c1, b64CharVal c2 with
      | some v1, some v2 =>
          if v2 % 16 = 0 then some [v1 * 4 + v2 / 16] else none
      | _, _ => none
  | [c1, c2, c3] =>
      match b64CharVal c1, b64CharVal c2, b64CharVal c3 with
      | some v1, some v2, some v3 =>
          if v3 % 4 = 0 then some [v1 * 4 + v2 / 16, v2 % 16 * 16 + v3 / 4] else none
      | _, _, _ => none
  | c1 :: c2 :: c3 :: c4 :: rest =>
      match b64CharVal c1, b64CharVal c2, b64CharVal c3, b64CharVal c4 with
      | some v1, some v2, some v3, some v4 =>
          (b64decode rest).map (fun bs =>
            (v1 * 4 + v2 / 16) :: (v2 % 16 * 16 + v3 / 4) :: (v3 % 4 * 64 + v4) :: bs)
      | _, _, _, _ => none

/-- Expect a literal character sequence. -/
def expectChars : List Char → List Char → Option (List Char)
  | [], s => some s
  | _ :: _, [] => none
  | c :: lt, c' :: st => if c = c' then expectChars lt st else none

/-- Parse a nonempty digit run as a natural number (serde's `usize`). -/
def parseNatStrict (s : List Char) : Option (Nat × List Char) :=
  let r := parseDigitsAux s 0 0
  if r.2.1 = 0 then none else some (r.1, r.2.2)

/-- Single-character JSON escapes. -/
def simpleEsc : Char → Option Char
  | '"' => some '"'
  | '\\' => some '\\'
  | '/' => some '/'
  | 'b' => some (Char.ofNat 8)
  | 'f' => some (Char.ofNat 12)
  | 'n' => some (Char.ofNat 10)
  | 'r' => some (Char.ofNat 13)
  | 't' => some (Char.ofNat 9)
  | _ => none

/-- Parse the body of a JSON string up to the closing quote. -/
def parseStringBody : List Char → Option (List Char × List Char)
  | [] => none
  | '"' :: r => some ([], r)
  | '\\' :: 'u' :: h1 :: h2 :: h3 :: h4 :: r =>
      match hexVal? h1, hexVal? h2, hexVal? h3, hexVal? h4 with
      | some v1, some v2, some v3, some v4 =>
          if ((v1 * 16 + v2) * 16 + v3) * 16 + v4 < 55296
              ∨ 57344 ≤ ((v1 * 16 + v2) * 16 + v3) * 16 + v4 then
            (parseStringBody r).map (fun pr =>
              (Char.ofNat (((v1 * 16 + v2) * 16 + v3) * 16 + v4) :: pr.1, pr.2))
          else none
      | _, _, _, _ => none
  | '\\' :: e :: r =>
      if e = 'u' then none
      else
        match simpleEsc e with
        | some c => (parseStringBody r).map (fun pr => (c :: pr.1, pr.2))
        | none => none
  | c :: r =>
      if c.toNat < 32 then none
      else (parseStringBody r).map (fun pr => (c :: pr.1, pr.2))

/-- Parse a JSON string literal. -/
def parseJsonString (s : List Char) : Option (String × List Char) :=
  match s with
  | '"' :: t => (parseStringBody t).map (fun pr => (⟨pr.1⟩, pr.2))
  | _ => none

/-- Leading minus sign of a JSON number (JSON allows no plus here). -/
def parseNegSign : List Char → Bool × List Char
  | '-' :: t => (true, t)
  | s => (false, s)

/-- Parse a JSON number as an exact rational. -/
def parseJsonNumber (s : List Char) : Option (ℚ × List Char) :=
  let sn := parseNegSign s
  let ir := parseDigitsAux sn.2 0 0
  if ir.2.1 = 0 then none
  else
    let fres : Option (Nat × Nat × List Char) :=
      match ir.2.2 with
      | '.' :: t =>
          let fr := parseDigitsAux t 0 0
          if fr.2.1 = 0 then none else some fr
      | _ => some (0, 0, ir.2.2)
    match fres with
    | none => none
    | some (fval, fcnt, r2) =>
        let mant : ℚ := ((ir.1 : ℚ) * 10 ^ fcnt + (fval : ℚ)) / 10 ^ fcnt
        let signed : ℚ := if sn.1 then -mant else mant
        match r2 with
        | c :: t =>
            if c = 'e' ∨ c = 'E' then
              let er := parseSign t
              let dr := parseDigitsAux er.2 0 0
              if dr.2.1 = 0 then none
              else some (signed * 10 ^ (if er.1 then -(dr.1 : ℤ) else (dr.1 : ℤ)), dr.2.2)
            else some (signed, c :: t)
        | [] => some (signed, [])

/-- Parse a JSON number into an `f64` field (exact in the model). -/
def parseF64Json (s : List Char) : Option (F64 × List Char) :=
  (parseJsonNumber s).map (fun pr => (F64.finite pr.1, pr.2))

/-- Parse one ingredient object of the payload grammar. -/
def parseIngredient (s : List Char) : Option (IngredientPayload × List Char) := do
  let s1 ← expectChars ('{' :: "\"id\":".data) s
  let (id, s2) ← parseNatStrict s1
  let s3 ← expectChars ",\"name\":".data s2
  let (nm, s4) ← parseJsonString s3
  let s5 ← expectChars ",\"protein\":".data s4
  let (pr, s6) ← parseF64Json s5
  let s7 ← expectChars ",\"fat\":".data s6
  let (fa, s8) ← parseF64Json s7
  let s9 ← expectChars ",\"net_carbs\":".data s8
  let (nc, s10) ← parseF64Json s9
  let s11 ← expectChars ",\"servings\":".data s10
  let (sv, s12) ← parseF64Json s11
  let s13 ← expectChars ['}'] s12
  some (⟨id, nm, pr, fa, nc, sv⟩, s13)

/-- Parse the comma-separated tail of the ingredient array. -/
def parseIngListTail : Nat → List Char → Option (List IngredientPayload × List Char)
  | _, ']' :: r => some ([], r)
  | fuel + 1, ',' :: r => do
      let (i, r1) ← parseIngredient r
      let (rest, r2) ← parseIngListTail fuel r1
      some (i :: rest, r2)
  | _, _ => none

/-- Parse the ingredient array after the opening bracket. -/
def parseIngList (fuel : Nat) (s : List Char) : Option (List IngredientPayload × List Char) :=
  match s with
  | ']' :: r => some ([], r)
  | _ => do
      let (i, r1) ← parseIngredient s
      let (rest, r2) ← parseIngListTail fuel r1
      some (i :: rest, r2)

/-- Parse the `name` field value: `null` or a JSON string, the two forms
serde takes for an `Option<String>` field. -/
def parseNameField : List Char → Option (Option String × List Char)
  | 'n' :: 'u' :: 'l' :: 'l' :: r => some (none, r)
  | s => (parseJsonString s).map (fun pr => (some pr.1, pr.2))

/-- Parse a whole recipe payload document, requiring the input to be fully
consumed as `serde_json::from_slice` does. -/
def parsePayload (s : List Char) : Option RecipePayload := do
  let s1 ← expectChars ('{' :: "\"name\":".data) s
  let (nm, s2) ← parseNameField s1
  let s3 ← expectChars ",\"ingredients\":[".data s2
  let (ings, s4) ← parseIngList (s3.length + 1) s3
  let s5 ← expectChars ['}'] s4
  if s5 = [] then some ⟨nm, ings⟩ else none

/-- Model of `encode_recipe`: build the payload (trimming the name and
sanitizing every quantity), serialize to JSON bytes, base64url-encode.
Serialization cannot fail in the model, mirroring that
`serde_json::to_vec` does not fail on this payload type. -/
def encode_recipe (ingredients : List Ingredient) (name : String) : Option String :=
  some ⟨b64encode (utf8Encode (printPayload
    ⟨if (trimChars name.data).isEmpty then none else some ⟨trimChars name.data⟩,
     ingredients.map ingredientToPayload⟩))⟩

/-- Model of `decode_recipe`: base64url-decode, then deserialize. -/
def decode_recipe (encoded : String) : Option RecipePayload := do
  let raw ← b64decode encoded.data
  let cs ← utf8Decode raw
  parsePayload cs

/-- Drop a leading hash mark (`strip_prefix('#').unwrap_or(&hash)`). -/
def dropHashMark : List Char → List Char
  | '#' :: t => t
  | s => s

/-- Drop the literal "recipe=" head, failing when absent. -/
def dropRecipeEq (s : List Char) : Option (List Char) :=
  expectChars "recipe=".data s

/-- Ingredients decoded from a payload, with the empty-list refill. -/
def ingredientsFromPayload (p : RecipePayload) : List Ingredient :=
  if (p.ingredients.map ingredientOfPayload).isEmpty then [Ingredient.empty 0]
  else p.ingredients.map ingredientOfPayload

/-- Model of `load_recipe_from_url`, with the address-bar fragment passed
in explicitly (the `window`/`location` collaborators are outside the
core). -/
def load_recipe_from_url (hash : String) : Option (List Ingredient × String) := do
  let enc ← dropRecipeEq (dropHashMark hash.data)
  let payload ← decode_recipe ⟨enc⟩
  some (ingredientsFromPayload payload, payload.name.getD "")

/-- The initial state computed in `App`: the loaded recipe, or one empty
row and an empty name. -/
def app_initial_state (hash : String) : List Ingredient × String :=
  (load_recipe_from_url hash).getD ([Ingredient.empty 0], "")

/-- Head-character digit test, used to state parser boundary conditions. -/
def headIsDigit : List Char → Bool
  | [] => false
  | c :: _ => c.isDigit

/-- A boundary where a JSON number must end: the head is not a digit, a
decimal point, or an exponent marker. -/
def numBoundary : List Char → Bool
  | [] => true
  | c :: _ => !(c.isDigit || c == '.' || c == 'e' || c == 'E')

/-- A payload number printable by the codec: finite, non-negative, with a
denominator dividing a power of ten. -/
def DecOK (v : F64) : Prop :=
  ∃ q : ℚ, v = .finite q ∧ 0 ≤ q ∧ (pow10k? q.den).isSome = true

/-- Shape of every rational produced by the numeric parser. -/
def IsDec (q : ℚ) : Prop :=
  ∃ (n : ℤ) (k : ℕ), q = (n : ℚ) / 10 ^ k

/-!
Shared helper lemmas about the sanitizer, the parser and the totals loop.
-/

theorem sanitize_shape (v : F64) : ∃ q : ℚ, sanitize_quantity v = .finite q ∧ 0 ≤ q := by
  cases v with
  | finite q => exact ⟨max q 0, rfl, le_max_right q 0⟩
  | nan => exact ⟨0, rfl, le_refl 0⟩
  | posInf => exact ⟨0, rfl, le_refl 0⟩
  | negInf => exact ⟨0, rfl, le_refl 0⟩

theorem parse_quantity_shape (s : String) :
    parse_quantity s = .finite (parseQRat s) ∧ 0 ≤ parseQRat s := by
  obtain ⟨q, hq, h0⟩ := sanitize_shape ((parseF64 (trimChars s.data)).getD (.finite 0))
  have hp : parse_quantity s = .finite q := hq
  have ht : parseQRat s = q := by rw [parseQRat, hp]; rfl
  rw [ht, hp]
  exact ⟨rfl, h0⟩

theorem ovfThreshold_pos : (0 : ℚ) < ovfThreshold := by norm_num [ovfThreshold]

theorem ofRatRounded_inRange (q : ℚ) (h1 : -ovfThreshold < q) (h2 : q < ovfThreshold) :
    F64.ofRatRounded q = .finite q := by
  rw [F64.ofRatRounded, if_neg (by linarith), if_neg (by linarith)]

theorem ofRatRounded_posOvf (q : ℚ) (h : ovfThreshold ≤ q) :
    F64.ofRatRounded q = .posInf := by
  have h0 := ovfThreshold_pos
  rw [F64.ofRatRounded, if_neg (by linarith), if_pos h]

theorem ofRatRounded_nonneg (q : ℚ) (h : 0 ≤ q) : NonNegOrInf (F64.ofRatRounded q) := by
  have h0 := ovfThreshold_pos
  rw [F64.ofRatRounded, if_neg (by linarith)]
  split
  · exact Or.inl rfl
  · exact Or.inr ⟨q, rfl, h⟩

theorem add_finite_of_lt (a b : ℚ) (h1 : -ovfThreshold < a + b) (h2 : a + b < ovfThreshold) :
    (F64.finite a).add (.finite b) = .finite (a + b) :=
  ofRatRounded_inRange _ h1 h2

theorem mul_finite_of_lt (a b : ℚ) (h1 : -ovfThreshold < a * b) (h2 : a * b < ovfThreshold) :
    (F64.finite a).mul (.finite b) = .finite (a * b) :=
  ofRatRounded_inRange _ h1 h2

theorem mul_posOvf (a b : ℚ) (h : ovfThreshold ≤ a * b) :
    (F64.finite a).mul (.finite b) = .posInf :=
  ofRatRounded_posOvf _ h

theorem add_nonnegOrInf (x y : F64) (hx : NonNegOrInf x) (hy : NonNegOrInf y) :
    NonNegOrInf (x.add y) := by
  rcases hx with rfl | ⟨a, rfl, ha⟩ <;> rcases hy with rfl | ⟨b, rfl, hb⟩
  · exact Or.inl rfl
  · exact Or.inl rfl
  · exact Or.inl rfl
  · exact ofRatRounded_nonneg _ (by linarith)

theorem mul_nonnegOrInf (a b : ℚ) (ha : 0 ≤ a) (hb : 0 ≤ b) :
    NonNegOrInf ((F64.finite a).mul (.finite b)) :=
  ofRatRounded_nonneg _ (mul_nonneg ha hb)

theorem totals_foldl_rat (items : List Ingredient) :
    ∀ a b c : ℚ, 0 ≤ a → 0 ≤ b → 0 ≤ c →
      a + (items.map (fun i => parseQRat i.protein * parseQRat i.servings)).sum
        < ovfThreshold →
      b + (items.map (fun i => parseQRat i.fat * parseQRat i.servings)).sum
        < ovfThreshold →
      c + (items.map (fun i => parseQRat i.net_carbs * parseQRat i.servings)).sum
        < ovfThreshold →
      items.foldl totalsStep (.finite a, .finite b, .finite c) =
        (.finite (a + (items.map (fun i => parseQRat i.protein * parseQRat i.servings)).sum),
         .finite (b + (items.map (fun i => parseQRat i.fat * parseQRat i.servings)).sum),
         .finite (c + (items.map (fun i => parseQRat i.net_carbs * parseQRat i.servings)).sum)) := by
  induction items with
  | nil => intro a b c _ _ _ _ _ _; simp
  | cons i t ih =>
      intro a b c ha hb hc hoa hob hoc
      have hT := ovfThreshold_pos
      have hp := (parse_quantity_shape i.protein).1
      have hf := (parse_quantity_shape i.fat).1
      have hcn := (parse_quantity_shape i.net_carbs).1
      have hs := (parse_quantity_shape i.servings).1
      have hp0 := (parse_quantity_shape i.protein).2
      have hf0 := (parse_quantity_shape i.fat).2
      have hcn0 := (parse_quantity_shape i.net_carbs).2
      have hs0 := (parse_quantity_shape i.servings).2
      have hpp : 0 ≤ parseQRat i.protein * parseQRat i.servings := mul_nonneg hp0 hs0
      have hfp : 0 ≤ parseQRat i.fat * parseQRat i.servings := mul_nonneg hf0 hs0
      have hcp : 0 ≤ parseQRat i.net_carbs * parseQRat i.servings := mul_nonneg hcn0 hs0
      have htp : 0 ≤ (t.map (fun i => parseQRat i.protein * parseQRat i.servings)).sum :=
        List.sum_nonneg (fun x hx => by
          obtain ⟨j, _, rfl⟩ := List.mem_map.1 hx
          exact mul_nonneg (parse_quantity_shape _).2 (parse_quantity_shape _).2)
      have htf : 0 ≤ (t.map (fun i => parseQRat i.fat * parseQRat i.servings)).sum :=
        List.sum_nonneg (fun x hx => by
          obtain ⟨j, _, rfl⟩ := List.mem_map.1 hx
          exact mul_nonneg (parse_quantity_shape _).2 (parse_quantity_shape _).2)
      have htc : 0 ≤ (t.map (fun i => parseQRat i.net_carbs * parseQRat i.servings)).sum :=
        List.sum_nonneg (fun x hx => by
          obtain ⟨j, _, rfl⟩ := List.mem_map.1 hx
          exact mul_nonneg (parse_quantity_shape _).2 (parse_quantity_shape _).2)
      simp only [List.map_cons, List.sum_cons] at hoa hob hoc
      simp only [List.foldl_cons, totalsStep, hp, hf, hcn, hs]
      rw [mul_finite_of_lt _ _ (by linarith) (by linarith),
        mul_finite_of_lt _ _ (by linarith) (by linarith),
        mul_finite_of_lt _ _ (by linarith) (by linarith),
        add_finite_of_lt _ _ (by linarith) (by linarith),
        add_finite_of_lt _ _ (by linarith) (by linarith),
        add_finite_of_lt _ _ (by linarith) (by linarith)]
      rw [ih _ _ _ (by linarith) (by linarith) (by linarith)
        (by linarith) (by linarith) (by linarith)]
      simp only [List.map_cons, List.sum_cons, Prod.mk.injEq]
      refine ⟨by ring_nf, by ring_nf, by ring_nf⟩

theorem digitsBE_ne_nil (n : Nat) : digitsBE n ≠ [] := by
  rw [digitsBE]
  split
  · simp
  · simp only [ne_eq, List.map_eq_nil_iff, List.reverse_eq_nil_iff]
    simpa [Nat.digits_ne_nil_iff_ne_zero] using by assumption

theorem fmt2Rat_length (q : ℚ) : 3 ≤ (fmt2Rat q).length := by
  rw [fmt2Rat]
  have h1 := List.length_pos.mpr (digitsBE_ne_nil ((rndHalfEven (|q| * 100)).toNat / 100))
  simp only [List.length_append, List.length_cons, padZeros, List.length_replicate]
  omega

theorem fmt2_ne_dash (v : F64) : fmt2 v ≠ "—" := by
  cases v with
  | finite q =>
      intro h
      have hdata : fmt2Rat q = "—".data := congrArg String.data h
      have hlen := congrArg List.length hdata
      have := fmt2Rat_length q
      simp at hlen
      omega
  | nan => exact fun h => absurd h (by decide)
  | posInf => exact fun h => absurd h (by decide)
  | negInf => exact fun h => absurd h (by decide)

theorem le_minPos_of_le_zero (x : F64) (h : x.le (.finite 0) = true) :
    x.le (.finite minPositive) = true := by
  have hmp : (0 : ℚ) ≤ minPositive := by rw [minPositive]; positivity
  cases x with
  | finite q =>
      simp only [F64.le, decide_eq_true_eq] at h ⊢
      exact le_trans h hmp
  | nan => exact absurd h (by decide)
  | posInf => exact absurd h (by decide)
  | negInf => decide

theorem id_le_maxIdOf : ∀ (l : List Ingredient), ∀ i ∈ l, i.id ≤ maxIdOf l := by
  intro l
  induction l with
  | nil => intro i hi; simp at hi
  | cons j t ih =>
      intro i hi
      rcases List.mem_cons.1 hi with rfl | hmem
      · exact le_max_left _ _
      · exact le_trans (ih i hmem) (le_max_right _ _)

theorem mem_lt_initial_next_id (l : List Ingredient) : ∀ i ∈ l, i.id < initial_next_id l := by
  intro i hi
  cases l with
  | nil => simp at hi
  | cons j t => exact Nat.lt_succ_of_le (id_le_maxIdOf _ i hi)

theorem applyOp_invariant (N : Nat) (orig : List Ingredient) (st : LedgerState) (op : LedgerOp)
    (h1 : N ≤ st.nextId)
    (h2 : ∀ i ∈ st.items, i.id < st.nextId ∧ (i ∈ orig ∨ N ≤ i.id)) :
    N ≤ (applyOp st op).nextId ∧
      ∀ i ∈ (applyOp st op).items,
        i.id < (applyOp st op).nextId ∧ (i ∈ orig ∨ N ≤ i.id) := by
  cases op with
  | add =>
      simp only [applyOp, add_ingredient]
      constructor
      · exact le_trans h1 (Nat.le_succ _)
      · intro i hi
        rcases List.mem_append.1 hi with hmem | hmem
        · exact ⟨Nat.lt_succ_of_lt (h2 i hmem).1, (h2 i hmem).2⟩
        · have heq : i = Ingredient.empty st.nextId := by simpa using hmem
          subst heq
          exact ⟨Nat.lt_succ_self _, Or.inr h1⟩
  | remove id =>
      simp only [applyOp]
      rw [remove_ingredient]
      split
      · constructor
        · exact le_trans h1 (Nat.le_succ _)
        · intro i hi
          have heq : i = Ingredient.empty st.nextId := by simpa using hi
          subst heq
          exact ⟨Nat.lt_succ_self _, Or.inr h1⟩
      · constructor
        · exact h1
        · intro i hi
          exact h2 i (List.mem_of_mem_filter hi)

theorem applyOps_invariant (N : Nat) (orig : List Ingredient) (ops : List LedgerOp) :
    ∀ st : LedgerState, N ≤ st.nextId →
      (∀ i ∈ st.items, i.id < st.nextId ∧ (i ∈ orig ∨ N ≤ i.id)) →
      N ≤ (applyOps st ops).nextId ∧
        ∀ i ∈ (applyOps st ops).items,
          i.id < (applyOps st ops).nextId ∧ (i ∈ orig ∨ N ≤ i.id) := by
  induction ops with
  | nil => intro st h1 h2; exact ⟨h1, h2⟩
  | cons op t ih =>
      intro st h1 h2
      have hstep := applyOp_invariant N orig st op h1 h2
      simpa [applyOps, List.foldl_cons] using ih (applyOp st op) hstep.1 hstep.2

/-!
Claim theorems.
-/

/-- C2: the grand totals computed by the `totals` memo equal the element-wise
sum, over all rows in ledger order, of the per-row totals, where each row
total field is the sanitized per-serving field times the sanitized servings;
moreover, whenever the exact rational sums stay below the `f64` overflow
threshold, each grand-total component is exactly the rational sum over the
rows of `parseQRat field * parseQRat servings`. -/
theorem totals_elementwise_spec (items : List Ingredient) :
    computeTotals items = sumTriples (items.map rowTotals) ∧
    ((items.map (fun i => parseQRat i.protein * parseQRat i.servings)).sum < ovfThreshold →
     (items.map (fun i => parseQRat i.fat * parseQRat i.servings)).sum < ovfThreshold →
     (items.map (fun i => parseQRat i.net_carbs * parseQRat i.servings)).sum < ovfThreshold →
     computeTotals items =
      (.finite ((items.map (fun i => parseQRat i.protein * parseQRat i.servings)).sum),
       .finite ((items.map (fun i => parseQRat i.fat * parseQRat i.servings)).sum),
       .finite ((items.map (fun i => parseQRat i.net_carbs * parseQRat i.servings)).sum))) := by
  constructor
  · rw [computeTotals, sumTriples, List.foldl_map]
    rfl
  · intro h1 h2 h3
    rw [computeTotals, totals_foldl_rat items 0 0 0 le_rfl le_rfl le_rfl
      (by linarith) (by linarith) (by linarith)]
    simp

/-- C2 witness: on the empty ledger the exact sums are zero, below the
overflow threshold, and the totals evaluate to the zero triple. -/
theorem totals_elementwise_witness :
    computeTotals ([] : List Ingredient) = (.finite 0, .finite 0, .finite 0) := by
  have h := (totals_elementwise_spec []).2
    (by simpa using ovfThreshold_pos) (by simpa using ovfThreshold_pos)
    (by simpa using ovfThreshold_pos)
  simpa using h

/-- C3: `format_ratio` returns the sentinel "—" exactly when
`fat + carbs <= f64::MIN_POSITIVE` under the Rust comparison, and in
particular whenever `fat + carbs <= 0`, including when both are zero. -/
theorem format_ratio_dash_spec (p f c : F64) :
    (format_ratio (p, f, c) = "—" ↔ (f.add c).le (.finite minPositive) = true) ∧
    ((f.add c).le (.finite 0) = true → format_ratio (p, f, c) = "—") := by
  have hmain : format_ratio (p, f, c) = "—" ↔ (f.add c).le (.finite minPositive) = true := by
    cases hle : (f.add c).le (.finite minPositive) with
    | false => simp [format_ratio, hle, fmt2_ne_dash]
    | true => simp [format_ratio, hle]
  exact ⟨hmain, fun h => hmain.mpr (le_minPos_of_le_zero _ h)⟩

/-- C3 witness: a concrete all-zero-energy input yields the sentinel. -/
theorem format_ratio_dash_witness :
    format_ratio (.finite 20, .finite 0, .finite 0) = "—" :=
  (format_ratio_dash_spec (.finite 20) (.finite 0) (.finite 0)).2
    (by norm_num [F64.add, F64.ofRatRounded, ovfThreshold, F64.le])

/-- C4: `parse_quantity` is total and safe: every input yields a finite
non-negative value; a parse failure after trimming yields 0; negative and
non-finite parsed values sanitize to 0. -/
theorem parse_quantity_total_spec :
    (∀ s : String, ∃ q : ℚ, parse_quantity s = .finite q ∧ 0 ≤ q) ∧
    (∀ s : String, parseF64 (trimChars s.data) = none → parse_quantity s = .finite 0) ∧
    (∀ q : ℚ, q < 0 → sanitize_quantity (.finite q) = .finite 0) ∧
    sanitize_quantity .nan = .finite 0 ∧
    sanitize_quantity .posInf = .finite 0 ∧
    sanitize_quantity .negInf = .finite 0 := by
  refine ⟨?_, ?_, ?_, rfl, rfl, rfl⟩
  · intro s
    exact ⟨parseQRat s, (parse_quantity_shape s).1, (parse_quantity_shape s).2⟩
  · intro s h
    rw [parse_quantity, h]
    simp [sanitize_quantity]
  · intro q h
    simp [sanitize_quantity, max_eq_right h.le]

/-- C4 witness: unparsable text and a negative value both degrade to 0. -/
theorem parse_quantity_total_witness :
    parse_quantity "abc" = .finite 0 ∧ sanitize_quantity (.finite (-3)) = .finite 0 :=
  ⟨parse_quantity_total_spec.2.1 "abc" (by decide),
   parse_quantity_total_spec.2.2.1 (-3) (by norm_num)⟩

/-- C8: the sanitizer is idempotent. -/
theorem sanitize_idempotent_spec (x : F64) :
    sanitize_quantity (sanitize_quantity x) = sanitize_quantity x := by
  cases x with
  | finite q =>
      show F64.finite (max (max q 0) 0) = F64.finite (max q 0)
      rw [max_eq_left (le_max_right q 0)]
  | nan => decide
  | posInf => decide
  | negInf => decide

/-- C6: from any state satisfying the id discipline, `add_ingredient` and
`remove_ingredient` preserve id uniqueness, mint exactly the current
counter value (then bump it), never hand out an id already present, and
never touch a surviving row's id. -/
theorem ledger_id_fresh_spec (st : LedgerState) (id : Nat) (h : LedgerInv st) :
    LedgerInv (add_ingredient st) ∧
    (add_ingredient st).items = st.items ++ [Ingredient.empty st.nextId] ∧
    (add_ingredient st).nextId = st.nextId + 1 ∧
    (∀ i ∈ st.items, i.id ≠ st.nextId) ∧
    LedgerInv (remove_ingredient st id) ∧
    (∀ i ∈ st.items, i.id ≠ id → i ∈ (remove_ingredient st id).items) := by
  obtain ⟨hpw, hbd⟩ := h
  refine ⟨⟨?_, ?_⟩, rfl, rfl, ?_, ?_, ?_⟩
  · rw [add_ingredient, List.pairwise_append]
    refine ⟨hpw, List.pairwise_singleton _ _, ?_⟩
    intro a ha b hb
    have hb' : b = Ingredient.empty st.nextId := by simpa using hb
    subst hb'
    exact Nat.ne_of_lt (hbd a ha)
  · intro i hi
    rw [add_ingredient] at hi
    rcases List.mem_append.1 hi with h1 | h1
    · exact Nat.lt_succ_of_lt (hbd i h1)
    · have heq : i = Ingredient.empty st.nextId := by simpa using h1
      subst heq
      exact Nat.lt_succ_self _
  · intro i hi
    exact Nat.ne_of_lt (hbd i hi)
  · rw [remove_ingredient]
    split
    · refine ⟨List.pairwise_singleton _ _, ?_⟩
      intro i hi
      have heq : i = Ingredient.empty st.nextId := by simpa using hi
      subst heq
      exact Nat.lt_succ_self _
    · refine ⟨List.Pairwise.sublist (List.filter_sublist _) hpw, ?_⟩
      intro i hi
      exact hbd i (List.mem_of_mem_filter hi)
  · intro i hi hne
    have hkept : i ∈ st.items.filter (fun item => item.id != id) := by
      rw [List.mem_filter]
      exact ⟨hi, by simpa using hne⟩
    rw [remove_ingredient]
    split
    · next hemp =>
        rw [List.isEmpty_iff] at hemp
        rw [hemp] at hkept
        simp at hkept
    · exact hkept

/-- C6 witness: a concrete one-row state with id 0 and counter 1. -/
theorem ledger_id_fresh_witness :
    LedgerInv (add_ingredient ⟨[Ingredient.empty 0], 1⟩) ∧
    LedgerInv (remove_ingredient ⟨[Ingredient.empty 0], 1⟩ 0) := by
  have hinv : LedgerInv ⟨[Ingredient.empty 0], 1⟩ := by
    refine ⟨List.pairwise_singleton _ _, ?_⟩
    intro i hi
    have heq : i = Ingredient.empty 0 := by simpa using hi
    subst heq
    decide
  have h := ledger_id_fresh_spec ⟨[Ingredient.empty 0], 1⟩ 0 hinv
  exact ⟨h.1, h.2.2.2.2.1⟩

theorem digitsBE_five : digitsBE 5 = ['5'] := by
  rw [digitsBE, if_neg (by norm_num : ¬(5 = 0)), show Nat.digits 10 5 = [5] from by simp]
  rfl

theorem fmt2Rat_neg_five : fmt2Rat (-5) = ['-', '5', '.', '0', '0'] := by
  have h2 : rndHalfEven (|(-5 : ℚ)| * 100) = 500 := by
    rw [show |(-5 : ℚ)| * 100 = 500 from by norm_num]
    norm_num [rndHalfEven]
  simp only [fmt2Rat, h2]
  rw [show ((500 : ℤ)).toNat = 500 from rfl]
  rw [show (500 : ℕ) / 100 = 5 from rfl, show (500 : ℕ) % 100 = 0 from rfl]
  rw [digitsBE_five, show digitsBE 0 = ['0'] from rfl]
  rw [if_pos (by norm_num : (-5 : ℚ) < 0)]
  rfl

theorem format_input_neg_five : format_input_value (.finite (-5)) = "-5.00" := by
  have hcond : (F64.finite (-5 : ℚ)).abs.lt (.finite (1 / 200)) = false := by
    rw [show (F64.finite (-5 : ℚ)).abs = .finite 5 from by
      show F64.finite |(-5 : ℚ)| = .finite 5
      norm_num]
    simp only [F64.lt, decide_eq_false_iff_not, not_lt]
    norm_num
  rw [format_input_value, hcond]
  simp only [Bool.false_eq_true, if_false]
  show (⟨fmt2Rat (-5)⟩ : String) = "-5.00"
  rw [fmt2Rat_neg_five]

theorem parse_neg_five : parse_quantity "-5.00" = .finite 0 := by
  have hpf : parseF64 (trimChars "-5.00".data) =
      some (.finite (-((((5 : ℕ) : ℚ) * 10 ^ (2 : ℕ) + ((0 : ℕ) : ℚ)) / 10 ^ (2 : ℕ)))) := by
    rfl
  rw [parse_quantity, hpf]
  show F64.finite (max (-((((5 : ℕ) : ℚ) * 10 ^ (2 : ℕ) + ((0 : ℕ) : ℚ)) / 10 ^ (2 : ℕ))) 0) =
    .finite 0
  rw [max_eq_right (by norm_num :
    (-((((5 : ℕ) : ℚ) * 10 ^ (2 : ℕ) + ((0 : ℕ) : ℚ)) / 10 ^ (2 : ℕ))) ≤ 0)]

theorem rowTotals_nonnegOrInf (item : Ingredient) :
    NonNegOrInf (rowTotals item).1 ∧ NonNegOrInf (rowTotals item).2.1 ∧
      NonNegOrInf (rowTotals item).2.2 := by
  obtain ⟨qp, hp, hp0⟩ := sanitize_shape ((parseF64 (trimChars item.protein.data)).getD (.finite 0))
  obtain ⟨qf, hf, hf0⟩ := sanitize_shape ((parseF64 (trimChars item.fat.data)).getD (.finite 0))
  obtain ⟨qc, hc, hc0⟩ :=
    sanitize_shape ((parseF64 (trimChars item.net_carbs.data)).getD (.finite 0))
  obtain ⟨qs, hs, hs0⟩ := sanitize_shape ((parseF64 (trimChars item.servings.data)).getD (.finite 0))
  have hp' : parse_quantity item.protein = .finite qp := hp
  have hf' : parse_quantity item.fat = .finite qf := hf
  have hc' : parse_quantity item.net_carbs = .finite qc := hc
  have hs' : parse_quantity item.servings = .finite qs := hs
  refine ⟨?_, ?_, ?_⟩
  · show NonNegOrInf ((parse_quantity item.protein).mul (parse_quantity item.servings))
    rw [hp', hs']
    exact mul_nonnegOrInf _ _ hp0 hs0
  · show NonNegOrInf ((parse_quantity item.fat).mul (parse_quantity item.servings))
    rw [hf', hs']
    exact mul_nonnegOrInf _ _ hf0 hs0
  · show NonNegOrInf ((parse_quantity item.net_carbs).mul (parse_quantity item.servings))
    rw [hc', hs']
    exact mul_nonnegOrInf _ _ hc0 hs0

theorem computeTotals_foldl_nonnegOrInf (items : List Ingredient) :
    ∀ acc : F64 × F64 × F64,
      NonNegOrInf acc.1 → NonNegOrInf acc.2.1 → NonNegOrInf acc.2.2 →
      NonNegOrInf (items.foldl totalsStep acc).1 ∧
      NonNegOrInf (items.foldl totalsStep acc).2.1 ∧
      NonNegOrInf (items.foldl totalsStep acc).2.2 := by
  induction items with
  | nil => intro acc h1 h2 h3; exact ⟨h1, h2, h3⟩
  | cons i t ih =>
      intro acc h1 h2 h3
      rw [List.foldl_cons]
      obtain ⟨r1, r2, r3⟩ := rowTotals_nonnegOrInf i
      exact ih (totalsStep acc i)
        (add_nonnegOrInf _ _ h1 r1) (add_nonnegOrInf _ _ h2 r2) (add_nonnegOrInf _ _ h3 r3)

/-- C9 (corrected): a ledger seeded from an arbitrary decoded payload always
has non-negative totals — every row total and every grand-total component is
either a finite non-negative rational or `+∞` — because every numeric field
is rendered to text and re-parsed through the sanitizer; finiteness, however,
can fail: large decoded values overflow the multiplication. A payload field
of -5.0 becomes the stored text "-5.00" yet parses back to 0. -/
theorem decoded_payload_totals_spec :
    (∀ item : Ingredient, NonNegOrInf (rowTotals item).1 ∧
       NonNegOrInf (rowTotals item).2.1 ∧ NonNegOrInf (rowTotals item).2.2) ∧
    (∀ ps : List IngredientPayload,
       NonNegOrInf (computeTotals (ps.map ingredientOfPayload)).1 ∧
       NonNegOrInf (computeTotals (ps.map ingredientOfPayload)).2.1 ∧
       NonNegOrInf (computeTotals (ps.map ingredientOfPayload)).2.2) ∧
    format_input_value (.finite (-5)) = "-5.00" ∧
    parse_quantity "-5.00" = .finite 0 := by
  refine ⟨rowTotals_nonnegOrInf, ?_, format_input_neg_five, parse_neg_five⟩
  intro ps
  exact computeTotals_foldl_nonnegOrInf (ps.map ingredientOfPayload) _
    (Or.inr ⟨0, rfl, le_rfl⟩) (Or.inr ⟨0, rfl, le_rfl⟩) (Or.inr ⟨0, rfl, le_rfl⟩)

/-- C10: the id counter starts one above the largest loaded id (1 for an
empty list), every loaded id is below it, and after any sequence of add and
remove operations every live row either is an original ingredient or
carries an id different from every original id. -/
theorem initial_next_id_spec (ings : List Ingredient) (ops : List LedgerOp) :
    initial_next_id [] = 1 ∧
    (∀ i ∈ ings, i.id < initial_next_id ings) ∧
    initial_next_id ings ≤ (applyOps ⟨ings, initial_next_id ings⟩ ops).nextId ∧
    (∀ i ∈ (applyOps ⟨ings, initial_next_id ings⟩ ops).items,
       i.id < (applyOps ⟨ings, initial_next_id ings⟩ ops).nextId ∧
       (i ∈ ings ∨ ∀ j ∈ ings, j.id ≠ i.id)) := by
  have hbase := mem_lt_initial_next_id ings
  have hinv := applyOps_invariant (initial_next_id ings) ings ops
    ⟨ings, initial_next_id ings⟩ (le_refl _)
    (fun i hi => ⟨hbase i hi, Or.inl hi⟩)
  refine ⟨rfl, hbase, hinv.1, ?_⟩
  intro i hi
  obtain ⟨hlt, hor⟩ := hinv.2 i hi
  refine ⟨hlt, ?_⟩
  rcases hor with h | h
  · exact Or.inl h
  · exact Or.inr (fun j hj => Nat.ne_of_lt (lt_of_lt_of_le (hbase j hj) h))

/-- C10 witness: after one add on a ledger loaded with a single id-5 row,
the freshly minted row has id 6, still below the counter. -/
theorem initial_next_id_witness :
    (Ingredient.empty 6).id <
      (applyOps ⟨[⟨5, "a", "1", "2", "3", "1"⟩],
        initial_next_id [⟨5, "a", "1", "2", "3", "1"⟩]⟩ [.add]).nextId :=
  ((initial_next_id_spec [⟨5, "a", "1", "2", "3", "1"⟩] [.add]).2.2.2
    (Ingredient.empty 6) (by decide)).1

/-!
Round-trip infrastructure: digit strings, literal expectation, numbers.
-/

theorem expectChars_append (lit r : List Char) : expectChars lit (lit ++ r) = some r := by
  induction lit with
  | nil => rfl
  | cons c t ih => simp [expectChars, ih]

theorem parseDigitsAux_stop (r : List Char) (h : headIsDigit r = false) (acc cnt : Nat) :
    parseDigitsAux r acc cnt = (acc, cnt, r) := by
  cases r with
  | nil => rfl
  | cons c t =>
      simp only [headIsDigit] at h
      simp [parseDigitsAux, h]

theorem parseDigitsAux_run (ds : List Char) (hds : ∀ c ∈ ds, c.isDigit = true)
    (r : List Char) (hr : headIsDigit r = false) :
    ∀ acc cnt, parseDigitsAux (ds ++ r) acc cnt =
      (ds.foldl (fun a c => a * 10 + (c.toNat - 48)) acc, cnt + ds.length, r) := by
  induction ds with
  | nil =>
      intro acc cnt
      simpa using parseDigitsAux_stop r hr acc cnt
  | cons c t ih =>
      intro acc cnt
      have hc := hds c (List.mem_cons_self c t)
      simp only [List.cons_append, parseDigitsAux, hc, if_true, List.append_eq]
      rw [ih (fun x hx => hds x (List.mem_cons_of_mem _ hx)) (acc * 10 + (c.toNat - 48)) (cnt + 1)]
      rw [List.foldl_cons, List.length_cons, show cnt + 1 + t.length = cnt + (t.length + 1) from by omega]

theorem digitChar_isDigit : ∀ d < 10, (digitChar d).isDigit = true := by decide

theorem digitChar_toNat : ∀ d < 10, (digitChar d).toNat - 48 = d := by decide

theorem digitsBE_all_digits (n : Nat) : ∀ c ∈ digitsBE n, c.isDigit = true := by
  intro c hc
  rw [digitsBE] at hc
  split at hc
  · simp at hc
    subst hc
    decide
  · simp only [List.mem_map, List.mem_reverse] at hc
    obtain ⟨d, hd, rfl⟩ := hc
    exact digitChar_isDigit d (Nat.digits_lt_base (by norm_num) hd)

theorem foldl_digitChar (l : List Nat) (hl : ∀ d ∈ l, d < 10) :
    ∀ a, (l.map digitChar).foldl (fun a c => a * 10 + (c.toNat - 48)) a =
      l.foldl (fun a d => a * 10 + d) a := by
  induction l with
  | nil => intro a; rfl
  | cons d t ih =>
      intro a
      simp only [List.map_cons, List.foldl_cons]
      rw [digitChar_toNat d (hl d (List.mem_cons_self d t))]
      exact ih (fun x hx => hl x (List.mem_cons_of_mem _ hx)) _

theorem foldr_ofDigits (l : List Nat) :
    l.foldr (fun d a => a * 10 + d) 0 = Nat.ofDigits 10 l := by
  induction l with
  | nil => simp [Nat.ofDigits]
  | cons d t ih =>
      simp only [List.foldr_cons, ih, Nat.ofDigits_cons]
      omega

theorem foldl_digitsBE (n : Nat) :
    (digitsBE n).foldl (fun a c => a * 10 + (c.toNat - 48)) 0 = n := by
  rw [digitsBE]
  split
  · next h => rw [h]; decide
  · rw [foldl_digitChar _ (fun d hd => Nat.digits_lt_base (by norm_num)
      (List.mem_reverse.mp hd))]
    rw [List.foldl_reverse]
    rw [show (fun (x : Nat) (y : Nat) => (fun (a d : Nat) => a * 10 + d) y x) =
      (fun (d a : Nat) => a * 10 + d) from rfl]
    rw [foldr_ofDigits]
    exact Nat.ofDigits_digits 10 n

theorem digitsBE_head (n : Nat) (r : List Char) : headIsDigit (digitsBE n ++ r) = true := by
  cases h : digitsBE n with
  | nil => exact absurd h (digitsBE_ne_nil n)
  | cons c t =>
      have hc : c ∈ digitsBE n := by rw [h]; exact List.mem_cons_self c t
      simp [headIsDigit, digitsBE_all_digits n c hc]

theorem parseNatStrict_run (n : Nat) (r : List Char) (hr : headIsDigit r = false) :
    parseNatStrict (digitsBE n ++ r) = some (n, r) := by
  have hlen := List.length_pos.mpr (digitsBE_ne_nil n)
  simp only [parseNatStrict]
  rw [parseDigitsAux_run (digitsBE n) (digitsBE_all_digits n) r hr 0 0]
  simp only [Nat.zero_add]
  rw [if_neg (by omega), foldl_digitsBE]

theorem foldl_replicate_zero (m : Nat) :
    (List.replicate m '0').foldl (fun a c => a * 10 + (c.toNat - 48)) 0 = 0 := by
  induction m with
  | zero => rfl
  | succ k ih =>
      rw [List.replicate_succ, List.foldl_cons]
      simpa using ih

theorem digitsBE_len_le (f k : Nat) (hf : f < 10 ^ k) (hk : 1 ≤ k) :
    (digitsBE f).length ≤ k := by
  rw [digitsBE]
  split
  · simpa using hk
  · next h =>
      rw [List.length_map, List.length_reverse, Nat.digits_len 10 f (by norm_num) h]
      have := (Nat.lt_pow_iff_log_lt (by norm_num : 1 < 10) h).mp hf
      omega

theorem parseFrac_run (f k : Nat) (hf : f < 10 ^ k) (hk : 1 ≤ k) (r : List Char)
    (hr : headIsDigit r = false) :
    parseDigitsAux (padZeros k (digitsBE f) ++ r) 0 0 = (f, k, r) := by
  have hall : ∀ c ∈ padZeros k (digitsBE f), c.isDigit = true := by
    intro c hc
    rw [padZeros] at hc
    rcases List.mem_append.mp hc with h | h
    · rw [List.eq_of_mem_replicate h]; decide
    · exact digitsBE_all_digits f c h
  rw [parseDigitsAux_run _ hall r hr 0 0]
  have hlen := digitsBE_len_le f k hf hk
  have hval : (padZeros k (digitsBE f)).foldl (fun a c => a * 10 + (c.toNat - 48)) 0 = f := by
    rw [padZeros, List.foldl_append, foldl_replicate_zero, foldl_digitsBE]
  have hlen2 : (padZeros k (digitsBE f)).length = k := by
    rw [padZeros, List.length_append, List.length_replicate]
    omega
  rw [hval, hlen2]
  simp

/-!
Correctness of the power-of-ten denominator analysis.
-/

theorem stripFac_spec (p : Nat) : ∀ fuel n, n = p ^ (stripFac p fuel n).1 * (stripFac p fuel n).2 := by
  intro fuel
  induction fuel with
  | zero => intro n; simp [stripFac]
  | succ f ih =>
      intro n
      rw [stripFac]
      split
      · next h =>
          obtain ⟨_, hdvd, _⟩ := h
          have hrec := ih (n / p)
          calc n = p * (n / p) := (Nat.mul_div_cancel' hdvd).symm
            _ = p * (p ^ (stripFac p f (n / p)).1 * (stripFac p f (n / p)).2) := by
                rw [← hrec]
            _ = p ^ ((stripFac p f (n / p)).1 + 1) * (stripFac p f (n / p)).2 := by
                rw [pow_succ]; ring
      · simp

theorem stripFac_not_dvd (p : Nat) (hp : 2 ≤ p) :
    ∀ fuel n, 1 ≤ n → n ≤ fuel → ¬ p ∣ (stripFac p fuel n).2 := by
  intro fuel
  induction fuel with
  | zero => intro n h1 h2 _; omega
  | succ f ih =>
      intro n h1 h2
      rw [stripFac]
      split
      · next h =>
          obtain ⟨_, hdvd, _⟩ := h
          apply ih (n / p)
          · exact (Nat.one_le_div_iff (by omega)).mpr (Nat.le_of_dvd (by omega) hdvd)
          · have : n / p < n := Nat.div_lt_self (by omega) (by omega)
            omega
      · next h =>
          intro hdvd
          exact h ⟨hp, hdvd, by omega⟩

theorem pow10k_dvd (d k : Nat) (h : pow10k? d = some k) : d ∣ 10 ^ k := by
  simp only [pow10k?] at h
  split at h
  · next h1 =>
      injection h with h2
      subst h2
      have e2 := stripFac_spec 2 d d
      have e5 := stripFac_spec 5 (stripFac 2 d d).2 (stripFac 2 d d).2
      rw [h1, mul_one] at e5
      rw [e5] at e2
      conv_lhs => rw [e2]
      have h10 : (10 : Nat) ^ max (stripFac 2 d d).1
          (stripFac 5 (stripFac 2 d d).2 (stripFac 2 d d).2).1 =
          2 ^ max (stripFac 2 d d).1 (stripFac 5 (stripFac 2 d d).2 (stripFac 2 d d).2).1 *
          5 ^ max (stripFac 2 d d).1 (stripFac 5 (stripFac 2 d d).2 (stripFac 2 d d).2).1 := by
        rw [← Nat.mul_pow]
      rw [h10]
      exact Nat.mul_dvd_mul (pow_dvd_pow 2 (le_max_left _ _)) (pow_dvd_pow 5 (le_max_right _ _))
  · exact absurd h (by simp)

theorem pow10k_isSome (d m : Nat) (hd : d ∣ 10 ^ m) : (pow10k? d).isSome = true := by
  have hdpos : d ≠ 0 := by
    intro h0
    rw [h0] at hd
    have := Nat.eq_zero_of_zero_dvd hd
    have hpow : (0 : ℕ) < 10 ^ m := by positivity
    omega
  have e2 := stripFac_spec 2 d d
  have h2 := stripFac_not_dvd 2 (by norm_num) d d (by omega) (le_refl d)
  have hm1ne : (stripFac 2 d d).2 ≠ 0 := by
    intro h0
    rw [h0, mul_zero] at e2
    exact hdpos e2
  have hm1d : (stripFac 2 d d).2 ∣ d := Dvd.intro_left _ e2.symm
  have hm1dvd : (stripFac 2 d d).2 ∣ 2 ^ m * 5 ^ m := by
    have h10 : (10 : Nat) ^ m = 2 ^ m * 5 ^ m := by rw [← Nat.mul_pow]
    rw [← h10]
    exact hm1d.trans hd
  have hcop : Nat.Coprime (stripFac 2 d d).2 (2 ^ m) :=
    Nat.Coprime.pow_right m
      (((Nat.Prime.coprime_iff_not_dvd Nat.prime_two).mpr h2).symm)
  have hm15 : (stripFac 2 d d).2 ∣ 5 ^ m := hcop.dvd_of_dvd_mul_left hm1dvd
  have e5 := stripFac_spec 5 (stripFac 2 d d).2 (stripFac 2 d d).2
  have h5 := stripFac_not_dvd 5 (by norm_num) (stripFac 2 d d).2 (stripFac 2 d d).2
    (by omega) (le_refl _)
  have hm2d : (stripFac 5 (stripFac 2 d d).2 (stripFac 2 d d).2).2 ∣ 5 ^ m :=
    (Dvd.intro_left _ e5.symm).trans hm15
  obtain ⟨j, _, hjm⟩ := (Nat.dvd_prime_pow Nat.prime_five).mp hm2d
  have hj0 : j = 0 := by
    by_contra hne
    apply h5
    rw [hjm]
    exact dvd_pow_self 5 hne
  rw [hj0, pow_zero] at hjm
  simp only [pow10k?]
  rw [if_pos hjm]
  rfl

/-!
The decimal printer parses back to the original rational.
-/

theorem parseNegSign_no_sign (l : List Char) (h : headIsDigit l = true) :
    parseNegSign l = (false, l) := by
  cases l with
  | nil => simp [headIsDigit] at h
  | cons c t =>
      simp only [headIsDigit] at h
      rw [parseNegSign.eq_def]
      split
      · next heq =>
          injection heq with h1 _
          rw [h1] at h
          exact absurd h (by decide)
      · rfl

theorem numBoundary_head (r : List Char) (h : numBoundary r = true) : headIsDigit r = false := by
  cases r with
  | nil => rfl
  | cons c t =>
      simp only [numBoundary, Bool.not_eq_true', Bool.or_eq_false_iff] at h
      simp [headIsDigit, h.1.1.1]

theorem decVal_eq (q : ℚ) (hq : 0 ≤ q) (k : ℕ) (hdvd : q.den ∣ 10 ^ k) :
    (((q.num.toNat * (10 ^ k / q.den)) / 10 ^ k : ℕ) : ℚ) * 10 ^ k
      + (((q.num.toNat * (10 ^ k / q.den)) % 10 ^ k : ℕ) : ℚ) = q * 10 ^ k := by
  have hden : (q.den : ℚ) ≠ 0 := Nat.cast_ne_zero.mpr q.den_nz
  have h1 := Nat.div_add_mod (q.num.toNat * (10 ^ k / q.den)) (10 ^ k)
  have h2 : ((q.num.toNat * (10 ^ k / q.den) / 10 ^ k : ℕ) : ℚ) * 10 ^ k
      + ((q.num.toNat * (10 ^ k / q.den) % 10 ^ k : ℕ) : ℚ)
      = ((q.num.toNat * (10 ^ k / q.den) : ℕ) : ℚ) := by
    exact_mod_cast congrArg (fun z : ℕ => (z : ℚ))
      (by rw [Nat.mul_comm (q.num.toNat * (10 ^ k / q.den) / 10 ^ k) (10 ^ k)]
          exact Nat.div_add_mod _ _ :
        (q.num.toNat * (10 ^ k / q.den) / 10 ^ k) * 10 ^ k
          + q.num.toNat * (10 ^ k / q.den) % 10 ^ k = q.num.toNat * (10 ^ k / q.den))
  rw [h2]
  rw [Nat.cast_mul, Nat.cast_div hdvd hden]
  have h3 : ((q.num.toNat : ℚ)) = (q.num : ℚ) := by
    exact_mod_cast congrArg (fun z : ℤ => (z : ℚ))
      (Int.toNat_of_nonneg (Rat.num_nonneg.mpr hq))
  rw [h3]
  rw [show ((10 ^ k : ℕ) : ℚ) = (10 : ℚ) ^ k from by push_cast; ring]
  conv_rhs => rw [← Rat.num_div_den q]
  field_simp

theorem parseJsonNumber_print (q : ℚ) (hq : 0 ≤ q) (hs : (pow10k? q.den).isSome = true)
    (r : List Char) (hr : numBoundary r = true) :
    parseJsonNumber (ratToJsonChars q ++ r) = some (q, r) := by
  obtain ⟨k0, hk0⟩ := Option.isSome_iff_exists.mp hs
  have hk1 : 1 ≤ max k0 1 := le_max_right k0 1
  have hdvd : q.den ∣ 10 ^ max k0 1 :=
    (pow10k_dvd q.den k0 hk0).trans (pow_dvd_pow 10 (le_max_left k0 1))
  have hF : q.num.toNat * (10 ^ max k0 1 / q.den) % 10 ^ max k0 1 < 10 ^ max k0 1 :=
    Nat.mod_lt _ (by positivity)
  have hprint : ratToJsonChars q ++ r =
      digitsBE (q.num.toNat * (10 ^ max k0 1 / q.den) / 10 ^ max k0 1) ++
        ('.' :: (padZeros (max k0 1)
          (digitsBE (q.num.toNat * (10 ^ max k0 1 / q.den) % 10 ^ max k0 1)) ++ r)) := by
    rw [ratToJsonChars, abs_of_nonneg hq, hk0]
    rw [if_neg (not_lt.mpr hq)]
    simp [List.append_assoc]
  rw [hprint]
  have h1 := parseNegSign_no_sign
    (digitsBE (q.num.toNat * (10 ^ max k0 1 / q.den) / 10 ^ max k0 1) ++
      ('.' :: (padZeros (max k0 1)
        (digitsBE (q.num.toNat * (10 ^ max k0 1 / q.den) % 10 ^ max k0 1)) ++ r)))
    (digitsBE_head _ _)
  have h2 := parseDigitsAux_run
    (digitsBE (q.num.toNat * (10 ^ max k0 1 / q.den) / 10 ^ max k0 1))
    (digitsBE_all_digits _)
    ('.' :: (padZeros (max k0 1)
      (digitsBE (q.num.toNat * (10 ^ max k0 1 / q.den) % 10 ^ max k0 1)) ++ r))
    (by rfl) 0 0
  rw [foldl_digitsBE] at h2
  have h3 := parseFrac_run (q.num.toNat * (10 ^ max k0 1 / q.den) % 10 ^ max k0 1)
    (max k0 1) hF hk1 r (numBoundary_head r hr)
  have hL1 := List.length_pos.mpr
    (digitsBE_ne_nil (q.num.toNat * (10 ^ max k0 1 / q.den) / 10 ^ max k0 1))
  simp only [parseJsonNumber, h1, h2, h3]
  rw [if_neg (by omega : ¬(0 + (digitsBE
    (q.num.toNat * (10 ^ max k0 1 / q.den) / 10 ^ max k0 1)).length = 0))]
  rw [if_neg (by omega : ¬(max k0 1 = 0))]
  dsimp only
  have hmant : ((q.num.toNat * (10 ^ max k0 1 / q.den) / 10 ^ max k0 1 : ℕ) : ℚ)
      * 10 ^ max k0 1
      + ((q.num.toNat * (10 ^ max k0 1 / q.den) % 10 ^ max k0 1 : ℕ) : ℚ) = q * 10 ^ max k0 1 :=
    decVal_eq q hq (max k0 1) hdvd
  cases r with
  | nil =>
      dsimp only
      congr 1
      rw [Prod.mk.injEq]
      refine ⟨?_, rfl⟩
      rw [hmant]
      field_simp
  | cons c t =>
      simp only [numBoundary, Bool.not_eq_true', Bool.or_eq_false_iff] at hr
      have hce : ¬(c = 'e' ∨ c = 'E') := by
        rintro (rfl | rfl)
        · simpa using hr.1.2
        · simpa using hr.2
      dsimp only
      rw [if_neg hce]
      congr 1
      rw [Prod.mk.injEq]
      refine ⟨?_, rfl⟩
      rw [hmant]
      field_simp

/-!
JSON string escaping parses back to the original characters.
-/

theorem hexVal_hexDigit : ∀ v < 16, hexVal? (hexDigit v) = some v := by decide

theorem parseStringBody_u (a b c d : Char) (X : List Char) :
    parseStringBody ('\\' :: 'u' :: a :: b :: c :: d :: X) =
      (match hexVal? a, hexVal? b, hexVal? c, hexVal? d with
       | some v1, some v2, some v3, some v4 =>
           if ((v1 * 16 + v2) * 16 + v3) * 16 + v4 < 55296
               ∨ 57344 ≤ ((v1 * 16 + v2) * 16 + v3) * 16 + v4 then
             (parseStringBody X).map (fun pr =>
               (Char.ofNat (((v1 * 16 + v2) * 16 + v3) * 16 + v4) :: pr.1, pr.2))
           else none
       | _, _, _, _ => none) := rfl

theorem parseStringBody_print (cs r : List Char) :
    parseStringBody ((cs.map escapeChar).flatten ++ ('"' :: r)) = some (cs, r) := by
  induction cs with
  | nil => rfl
  | cons c t ih =>
      simp only [List.map_cons, List.flatten_cons, List.append_assoc]
      by_cases h1 : c = '"'
      · subst h1
        rw [show escapeChar '"' = ['\\', '"'] from rfl]
        show parseStringBody ('\\' :: '"' :: ((t.map escapeChar).flatten ++ '"' :: r)) = _
        rw [show parseStringBody ('\\' :: '"' :: ((t.map escapeChar).flatten ++ '"' :: r))
            = (parseStringBody ((t.map escapeChar).flatten ++ '"' :: r)).map
              (fun pr => ('"' :: pr.1, pr.2)) from rfl]
        rw [ih]
        rfl
      · by_cases h2 : c = '\\'
        · subst h2
          rw [show escapeChar '\\' = ['\\', '\\'] from rfl]
          show parseStringBody ('\\' :: '\\' :: ((t.map escapeChar).flatten ++ '"' :: r)) = _
          rw [show parseStringBody ('\\' :: '\\' :: ((t.map escapeChar).flatten ++ '"' :: r))
              = (parseStringBody ((t.map escapeChar).flatten ++ '"' :: r)).map
                (fun pr => ('\\' :: pr.1, pr.2)) from rfl]
          rw [ih]
          rfl
        · by_cases h3 : c.toNat < 32
          · by_cases hv8 : c.toNat = 8
            · rw [escapeChar, if_neg h1, if_neg h2, if_pos h3, if_pos hv8]
              show parseStringBody ('\\' :: 'b' :: ((t.map escapeChar).flatten ++ '"' :: r)) = _
              rw [show parseStringBody ('\\' :: 'b' :: ((t.map escapeChar).flatten ++ '"' :: r))
                  = (parseStringBody ((t.map escapeChar).flatten ++ '"' :: r)).map
                    (fun pr => (Char.ofNat 8 :: pr.1, pr.2)) from rfl]
              rw [ih, ← hv8, Char.ofNat_toNat]
              rfl
            · by_cases hv9 : c.toNat = 9
              · rw [escapeChar, if_neg h1, if_neg h2, if_pos h3, if_neg hv8, if_pos hv9]
                show parseStringBody ('\\' :: 't' :: ((t.map escapeChar).flatten ++ '"' :: r)) = _
                rw [show parseStringBody ('\\' :: 't' :: ((t.map escapeChar).flatten ++ '"' :: r))
                    = (parseStringBody ((t.map escapeChar).flatten ++ '"' :: r)).map
                      (fun pr => (Char.ofNat 9 :: pr.1, pr.2)) from rfl]
                rw [ih, ← hv9, Char.ofNat_toNat]
                rfl
              · by_cases hv10 : c.toNat = 10
                · rw [escapeChar, if_neg h1, if_neg h2, if_pos h3, if_neg hv8, if_neg hv9,
                    if_pos hv10]
                  show parseStringBody ('\\' :: 'n' :: ((t.map escapeChar).flatten ++ '"' :: r)) = _
                  rw [show parseStringBody
                      ('\\' :: 'n' :: ((t.map escapeChar).flatten ++ '"' :: r))
                      = (parseStringBody ((t.map escapeChar).flatten ++ '"' :: r)).map
                        (fun pr => (Char.ofNat 10 :: pr.1, pr.2)) from rfl]
                  rw [ih, ← hv10, Char.ofNat_toNat]
                  rfl
                · by_cases hv12 : c.toNat = 12
                  · rw [escapeChar, if_neg h1, if_neg h2, if_pos h3, if_neg hv8, if_neg hv9,
                      if_neg hv10, if_pos hv12]
                    show parseStringBody ('\\' :: 'f' :: ((t.map escapeChar).flatten ++ '"' :: r)) = _
                    rw [show parseStringBody
                        ('\\' :: 'f' :: ((t.map escapeChar).flatten ++ '"' :: r))
                        = (parseStringBody ((t.map escapeChar).flatten ++ '"' :: r)).map
                          (fun pr => (Char.ofNat 12 :: pr.1, pr.2)) from rfl]
                    rw [ih, ← hv12, Char.ofNat_toNat]
                    rfl
                  · by_cases hv13 : c.toNat = 13
                    · rw [escapeChar, if_neg h1, if_neg h2, if_pos h3, if_neg hv8, if_neg hv9,
                        if_neg hv10, if_neg hv12, if_pos hv13]
                      show parseStringBody ('\\' :: 'r' :: ((t.map escapeChar).flatten ++ '"' :: r)) = _
                      rw [show parseStringBody
                          ('\\' :: 'r' :: ((t.map escapeChar).flatten ++ '"' :: r))
                          = (parseStringBody ((t.map escapeChar).flatten ++ '"' :: r)).map
                            (fun pr => (Char.ofNat 13 :: pr.1, pr.2)) from rfl]
                      rw [ih, ← hv13, Char.ofNat_toNat]
                      rfl
                    · rw [escapeChar, if_neg h1, if_neg h2, if_pos h3, if_neg hv8, if_neg hv9,
                        if_neg hv10, if_neg hv12, if_neg hv13]
                      show parseStringBody ('\\' :: 'u' :: '0' :: '0'
                        :: hexDigit (c.toNat / 16) :: hexDigit (c.toNat % 16)
                        :: ((t.map escapeChar).flatten ++ '"' :: r)) = _
                      rw [parseStringBody_u]
                      rw [show hexVal? '0' = some 0 from rfl]
                      rw [hexVal_hexDigit (c.toNat / 16) (by omega)]
                      rw [hexVal_hexDigit (c.toNat % 16) (by omega)]
                      dsimp only
                      rw [show ((0 * 16 + 0) * 16 + c.toNat / 16) * 16 + c.toNat % 16 = c.toNat
                        from by omega]
                      rw [if_pos (Or.inl (by omega))]
                      rw [ih, Char.ofNat_toNat]
                      rfl
          · rw [escapeChar, if_neg h1, if_neg h2, if_neg h3]
            show parseStringBody (c :: ((t.map escapeChar).flatten ++ '"' :: r)) = _
            rw [parseStringBody.eq_def]
            split
            · rename_i heq
              exact absurd heq (by simp)
            · rename_i rr heq
              injection heq with hc _
              exact absurd hc h1
            · rename_i a1 a2 a3 a4 rr heq
              injection heq with hc _
              exact absurd hc h2
            · rename_i e rr heq
              injection heq with hc _
              exact absurd hc h2
            · rename_i cx rx e1 e2 e3 heq
              injection heq with hc ht
              subst hc
              subst ht
              rw [if_neg h3, ih]
              rfl

theorem parseJsonString_print (s : String) (r : List Char) :
    parseJsonString (printJsonString s ++ r) = some (s, r) := by
  rw [printJsonString]
  show parseJsonString ('"' :: ((s.data.map escapeChar).flatten ++ ['"'] ++ r)) = _
  rw [parseJsonString]
  rw [show (s.data.map escapeChar).flatten ++ ['"'] ++ r
    = (s.data.map escapeChar).flatten ++ ('"' :: r) from by simp]
  rw [parseStringBody_print]
  rfl

/-!
Every value the quantity parser can produce is a decimal rational, so the
codec's number printer applies to everything `encode_recipe` serializes.
-/

theorem isDec_zero : IsDec 0 := ⟨0, 0, by norm_num⟩

theorem isDec_mant (i fv f : Nat) : IsDec (((i : ℚ) * 10 ^ f + (fv : ℚ)) / 10 ^ f) := by
  refine ⟨(i : ℤ) * 10 ^ f + fv, f, ?_⟩
  push_cast
  ring

theorem isDec_neg (q : ℚ) (h : IsDec q) : IsDec (-q) := by
  obtain ⟨n, k, rfl⟩ := h
  exact ⟨-n, k, by push_cast; ring⟩

theorem isDec_zpow10 (q : ℚ) (h : IsDec q) (e : ℤ) : IsDec (q * 10 ^ e) := by
  obtain ⟨n, k, rfl⟩ := h
  cases e with
  | ofNat m =>
      refine ⟨n * 10 ^ m, k, ?_⟩
      rw [Int.ofNat_eq_coe, zpow_natCast]
      push_cast
      ring
  | negSucc m =>
      refine ⟨n, k + (m + 1), ?_⟩
      rw [zpow_negSucc]
      rw [pow_add]
      field_simp
      left
      ring

theorem isDec_max_zero (q : ℚ) (h : IsDec q) : IsDec (max q 0) := by
  rcases le_total q 0 with hq | hq
  · rw [max_eq_right hq]
    exact isDec_zero
  · rw [max_eq_left hq]
    exact h

theorem parseF64_finite_isDec (l : List Char) (q : ℚ)
    (h : parseF64 l = some (.finite q)) : IsDec q := by
  simp only [parseF64] at h
  split at h
  · rw [Option.some_inj] at h
    split at h <;> simp at h
  · split at h
    · rw [Option.some_inj] at h
      simp at h
    · split at h
      · simp at h
      · split at h
        · rw [Option.some_inj, F64.finite.injEq] at h
          subst h
          split
          · exact isDec_neg _ (isDec_mant _ _ _)
          · exact isDec_mant _ _ _
        · split at h
          · split at h
            · simp at h
            · rw [Option.some_inj, F64.finite.injEq] at h
              subst h
              refine isDec_zpow10 _ ?_ _
              split
              · exact isDec_neg _ (isDec_mant _ _ _)
              · exact isDec_mant _ _ _
          · simp at h

theorem parse_quantity_isDec (s : String) : IsDec (parseQRat s) := by
  rw [parseQRat, parse_quantity]
  cases hp : parseF64 (trimChars s.data) with
  | none => exact isDec_zero
  | some v =>
      cases v with
      | finite q =>
          simp only [Option.getD_some, sanitize_quantity, F64.toRat]
          exact isDec_max_zero q (parseF64_finite_isDec _ q hp)
      | nan => exact isDec_zero
      | posInf => exact isDec_zero
      | negInf => exact isDec_zero

theorem isDec_pow10k (q : ℚ) (h : IsDec q) : (pow10k? q.den).isSome = true := by
  obtain ⟨n, k, rfl⟩ := h
  have hd := Rat.den_dvd n (10 ^ k)
  rw [Rat.divInt_eq_div] at hd
  have hd2 : ((n : ℚ) / 10 ^ k).den ∣ 10 ^ k := by exact_mod_cast hd
  exact pow10k_isSome _ k hd2

theorem parse_quantity_DecOK (s : String) : DecOK (parse_quantity s) := by
  refine ⟨parseQRat s, (parse_quantity_shape s).1, (parse_quantity_shape s).2, ?_⟩
  exact isDec_pow10k _ (parse_quantity_isDec s)

theorem parseF64Json_print (v : F64) (hv : DecOK v) (r : List Char)
    (hr : numBoundary r = true) :
    parseF64Json (printF64Json v ++ r) = some (v, r) := by
  obtain ⟨q, rfl, hq, hs⟩ := hv
  show parseF64Json (ratToJsonChars q ++ r) = some (.finite q, r)
  rw [parseF64Json, parseJsonNumber_print q hq hs r hr]
  rfl

theorem parseNatStrict_name (n : Nat) (x : List Char) :
    parseNatStrict (digitsBE n ++ (",\"name\":".data ++ x))
      = some (n, ",\"name\":".data ++ x) :=
  parseNatStrict_run n _ rfl

theorem parseF64Json_fat (v : F64) (hv : DecOK v) (x : List Char) :
    parseF64Json (printF64Json v ++ (",\"fat\":".data ++ x))
      = some (v, ",\"fat\":".data ++ x) :=
  parseF64Json_print v hv _ rfl

theorem parseF64Json_nc (v : F64) (hv : DecOK v) (x : List Char) :
    parseF64Json (printF64Json v ++ (",\"net_carbs\":".data ++ x))
      = some (v, ",\"net_carbs\":".data ++ x) :=
  parseF64Json_print v hv _ rfl

theorem parseF64Json_sv (v : F64) (hv : DecOK v) (x : List Char) :
    parseF64Json (printF64Json v ++ (",\"servings\":".data ++ x))
      = some (v, ",\"servings\":".data ++ x) :=
  parseF64Json_print v hv _ rfl

theorem parseF64Json_brace (v : F64) (hv : DecOK v) (x : List Char) :
    parseF64Json (printF64Json v ++ (['\x7d'] ++ x))
      = some (v, ['\x7d'] ++ x) :=
  parseF64Json_print v hv _ rfl

theorem parseIngredient_print (i : IngredientPayload)
    (h1 : DecOK i.protein) (h2 : DecOK i.fat) (h3 : DecOK i.net_carbs) (h4 : DecOK i.servings)
    (r : List Char) :
    parseIngredient (printIngredient i ++ r) = some (i, r) := by
  have hsh : printIngredient i ++ r = ('{' :: "\"id\":".data) ++
      (digitsBE i.id ++ (",\"name\":".data ++ (printJsonString i.name ++
      (",\"protein\":".data ++ (printF64Json i.protein ++
      (",\"fat\":".data ++ (printF64Json i.fat ++
      (",\"net_carbs\":".data ++ (printF64Json i.net_carbs ++
      (",\"servings\":".data ++ (printF64Json i.servings ++ (['}'] ++ r)))))))))))) := by
    simp [printIngredient]
  rw [hsh]
  unfold parseIngredient
  rw [expectChars_append]
  simp only [Option.bind_eq_bind, Option.some_bind]
  rw [parseNatStrict_name]
  simp only [Option.bind_eq_bind, Option.some_bind]
  rw [expectChars_append]
  simp only [Option.bind_eq_bind, Option.some_bind]
  rw [parseJsonString_print]
  simp only [Option.bind_eq_bind, Option.some_bind]
  rw [expectChars_append]
  simp only [Option.bind_eq_bind, Option.some_bind]
  rw [parseF64Json_fat _ h1]
  simp only [Option.bind_eq_bind, Option.some_bind]
  rw [expectChars_append]
  simp only [Option.bind_eq_bind, Option.some_bind]
  rw [parseF64Json_nc _ h2]
  simp only [Option.bind_eq_bind, Option.some_bind]
  rw [expectChars_append]
  simp only [Option.bind_eq_bind, Option.some_bind]
  rw [parseF64Json_sv _ h3]
  simp only [Option.bind_eq_bind, Option.some_bind]
  rw [expectChars_append]
  simp only [Option.bind_eq_bind, Option.some_bind]
  rw [parseF64Json_brace _ h4]
  simp only [Option.bind_eq_bind, Option.some_bind]
  rw [expectChars_append]
  simp only [Option.some_bind]

/-!
UTF-8 and base64url: both byte codecs invert the encoder.
-/

theorem char_toNat_valid (c : Char) :
    c.toNat < 55296 ∨ (57343 < c.toNat ∧ c.toNat < 1114112) := by
  rcases c.valid with h | h
  · left
    have h2 : c.val.toBitVec.toNat < (55296 : UInt32).toBitVec.toNat :=
      BitVec.lt_def.mp (UInt32.lt_def.mp h)
    simpa using h2
  · right
    obtain ⟨h1, h2⟩ := h
    refine ⟨?_, ?_⟩
    · have h3 : (57343 : UInt32).toBitVec.toNat < c.val.toBitVec.toNat :=
        BitVec.lt_def.mp (UInt32.lt_def.mp h1)
      simpa using h3
    · have h3 : c.val.toBitVec.toNat < (1114112 : UInt32).toBitVec.toNat :=
        BitVec.lt_def.mp (UInt32.lt_def.mp h2)
      simpa using h3

theorem utf8EncodeChar_lt (c : Char) : ∀ b ∈ utf8EncodeChar c, b < 256 := by
  have hv := char_toNat_valid c
  intro b hb
  rw [utf8EncodeChar] at hb
  split at hb
  · simp at hb
    omega
  · split at hb
    · simp at hb
      rcases hb with rfl | rfl <;> omega
    · split at hb
      · simp at hb
        rcases hb with rfl | rfl | rfl <;> omega
      · simp at hb
        rcases hb with rfl | rfl | rfl | rfl <;> omega

theorem utf8Encode_lt (cs : List Char) : ∀ b ∈ utf8Encode cs, b < 256 := by
  intro b hb
  rw [utf8Encode] at hb
  simp only [List.mem_flatten, List.mem_map] at hb
  obtain ⟨l, ⟨c, _, rfl⟩, hbl⟩ := hb
  exact utf8EncodeChar_lt c b hbl

theorem utf8Decode_encode (cs : List Char) : utf8Decode (utf8Encode cs) = some cs := by
  induction cs with
  | nil => rfl
  | cons c t ih =>
      have hv := char_toNat_valid c
      rw [utf8Encode, List.map_cons, List.flatten_cons]
      rw [show (List.map utf8EncodeChar t).flatten = utf8Encode t from rfl]
      rw [utf8EncodeChar]
      by_cases h1 : c.toNat < 128
      · rw [if_pos h1]
        show utf8Decode (c.toNat :: utf8Encode t) = _
        rw [utf8Decode.eq_def]
        dsimp only
        rw [if_pos h1, ih]
        simp only [Option.map_some', Char.ofNat_toNat]
      · rw [if_neg h1]
        by_cases h2 : c.toNat < 2048
        · rw [if_pos h2]
          show utf8Decode ((192 + c.toNat / 64) :: (128 + c.toNat % 64) :: utf8Encode t) = _
          rw [utf8Decode.eq_def]
          dsimp only
          rw [if_neg (by omega), if_neg (by omega), if_pos (by omega)]
          rw [if_pos (by omega : 128 ≤ 128 + c.toNat % 64 ∧ 128 + c.toNat % 64 < 192)]
          rw [show (192 + c.toNat / 64 - 192) * 64 + (128 + c.toNat % 64 - 128) = c.toNat
            from by omega]
          rw [ih]
          simp only [Option.map_some', Char.ofNat_toNat]
        · rw [if_neg h2]
          by_cases h3 : c.toNat < 65536
          · rw [if_pos h3]
            show utf8Decode ((224 + c.toNat / 4096) :: (128 + c.toNat / 64 % 64)
              :: (128 + c.toNat % 64) :: utf8Encode t) = _
            rw [utf8Decode.eq_def]
            dsimp only
            rw [if_neg (by omega), if_neg (by omega), if_neg (by omega), if_pos (by omega)]
            rw [if_pos (by omega :
              (128 ≤ 128 + c.toNat / 64 % 64 ∧ 128 + c.toNat / 64 % 64 < 192) ∧
              128 ≤ 128 + c.toNat % 64 ∧ 128 + c.toNat % 64 < 192)]
            rw [show ((224 + c.toNat / 4096 - 224) * 64 + (128 + c.toNat / 64 % 64 - 128)) * 64
              + (128 + c.toNat % 64 - 128) = c.toNat from by omega]
            rw [ih]
            simp only [Option.map_some', Char.ofNat_toNat]
          · rw [if_neg h3]
            show utf8Decode ((240 + c.toNat / 262144) :: (128 + c.toNat / 4096 % 64)
              :: (128 + c.toNat / 64 % 64) :: (128 + c.toNat % 64) :: utf8Encode t) = _
            rw [utf8Decode.eq_def]
            dsimp only
            rw [if_neg (by omega), if_neg (by omega), if_neg (by omega), if_neg (by omega),
              if_pos (by omega)]
            rw [if_pos (by omega :
              (128 ≤ 128 + c.toNat / 4096 % 64 ∧ 128 + c.toNat / 4096 % 64 < 192) ∧
              (128 ≤ 128 + c.toNat / 64 % 64 ∧ 128 + c.toNat / 64 % 64 < 192) ∧
              128 ≤ 128 + c.toNat % 64 ∧ 128 + c.toNat % 64 < 192)]
            rw [show (((240 + c.toNat / 262144 - 240) * 64 + (128 + c.toNat / 4096 % 64 - 128))
              * 64 + (128 + c.toNat / 64 % 64 - 128)) * 64 + (128 + c.toNat % 64 - 128)
              = c.toNat from by omega]
            rw [ih]
            simp only [Option.map_some', Char.ofNat_toNat]

theorem b64CharVal_b64Char : ∀ i < 64, b64CharVal (b64Char i) = some i := by decide

theorem b64decode_encode : ∀ (bs : List Nat), (∀ b ∈ bs, b < 256) →
    b64decode (b64encode bs) = some bs
  | [] => fun _ => rfl
  | [b1] => fun h => by
      have hb1 : b1 < 256 := h b1 (by simp)
      rw [show b64encode [b1] = [b64Char (b1 / 4), b64Char (b1 % 4 * 16)] from rfl]
      rw [show b64decode [b64Char (b1 / 4), b64Char (b1 % 4 * 16)] =
        (match b64CharVal (b64Char (b1 / 4)), b64CharVal (b64Char (b1 % 4 * 16)) with
         | some v1, some v2 => if v2 % 16 = 0 then some [v1 * 4 + v2 / 16] else none
         | _, _ => none) from rfl]
      rw [b64CharVal_b64Char _ (by omega), b64CharVal_b64Char _ (by omega)]
      dsimp only
      rw [if_pos (by omega)]
      rw [show b1 / 4 * 4 + b1 % 4 * 16 / 16 = b1 from by omega]
  | [b1, b2] => fun h => by
      have hb1 : b1 < 256 := h b1 (by simp)
      have hb2 : b2 < 256 := h b2 (by simp)
      rw [show b64encode [b1, b2] = [b64Char (b1 / 4), b64Char (b1 % 4 * 16 + b2 / 16),
        b64Char (b2 % 16 * 4)] from rfl]
      rw [show b64decode [b64Char (b1 / 4), b64Char (b1 % 4 * 16 + b2 / 16),
        b64Char (b2 % 16 * 4)] =
        (match b64CharVal (b64Char (b1 / 4)), b64CharVal (b64Char (b1 % 4 * 16 + b2 / 16)),
            b64CharVal (b64Char (b2 % 16 * 4)) with
         | some v1, some v2, some v3 =>
             if v3 % 4 = 0 then some [v1 * 4 + v2 / 16, v2 % 16 * 16 + v3 / 4] else none
         | _, _, _ => none) from rfl]
      rw [b64CharVal_b64Char _ (by omega), b64CharVal_b64Char _ (by omega),
        b64CharVal_b64Char _ (by omega)]
      dsimp only
      rw [if_pos (by omega)]
      rw [show b1 / 4 * 4 + (b1 % 4 * 16 + b2 / 16) / 16 = b1 from by omega]
      rw [show (b1 % 4 * 16 + b2 / 16) % 16 * 16 + b2 % 16 * 4 / 4 = b2 from by omega]
  | b1 :: b2 :: b3 :: b4x :: rest => fun h => by
      have hb1 : b1 < 256 := h b1 (by simp)
      have hb2 : b2 < 256 := h b2 (by simp)
      have hb3 : b3 < 256 := h b3 (by simp)
      rw [show b64encode (b1 :: b2 :: b3 :: b4x :: rest) = b64Char (b1 / 4)
        :: b64Char (b1 % 4 * 16 + b2 / 16) :: b64Char (b2 % 16 * 4 + b3 / 64)
        :: b64Char (b3 % 64) :: b64encode (b4x :: rest) from rfl]
      rw [show ∀ c1 c2 c3 c4 X, b64decode (c1 :: c2 :: c3 :: c4 :: X) =
        (match b64CharVal c1, b64CharVal c2, b64CharVal c3, b64CharVal c4 with
         | some v1, some v2, some v3, some v4 =>
             (b64decode X).map (fun bs =>
               (v1 * 4 + v2 / 16) :: (v2 % 16 * 16 + v3 / 4) :: (v3 % 4 * 64 + v4) :: bs)
         | _, _, _, _ => none) from fun c1 c2 c3 c4 X => rfl]
      rw [b64CharVal_b64Char _ (by omega), b64CharVal_b64Char _ (by omega),
        b64CharVal_b64Char _ (by omega), b64CharVal_b64Char _ (by omega)]
      dsimp only
      rw [b64decode_encode (b4x :: rest) (fun b hb => h b (by simp at hb ⊢; tauto))]
      rw [show b1 / 4 * 4 + (b1 % 4 * 16 + b2 / 16) / 16 = b1 from by omega]
      rw [show (b1 % 4 * 16 + b2 / 16) % 16 * 16 + (b2 % 16 * 4 + b3 / 64) / 4 = b2
        from by omega]
      rw [show (b2 % 16 * 4 + b3 / 64) % 4 * 64 + b3 % 64 = b3 from by omega]
      rfl
  | [b1, b2, b3] => fun h => by
      have hb1 : b1 < 256 := h b1 (by simp)
      have hb2 : b2 < 256 := h b2 (by simp)
      have hb3 : b3 < 256 := h b3 (by simp)
      rw [show b64encode [b1, b2, b3] = b64Char (b1 / 4)
        :: b64Char (b1 % 4 * 16 + b2 / 16) :: b64Char (b2 % 16 * 4 + b3 / 64)
        :: b64Char (b3 % 64) :: b64encode [] from rfl]
      rw [show ∀ c1 c2 c3 c4 X, b64decode (c1 :: c2 :: c3 :: c4 :: X) =
        (match b64CharVal c1, b64CharVal c2, b64CharVal c3, b64CharVal c4 with
         | some v1, some v2, some v3, some v4 =>
             (b64decode X).map (fun bs =>
               (v1 * 4 + v2 / 16) :: (v2 % 16 * 16 + v3 / 4) :: (v3 % 4 * 64 + v4) :: bs)
         | _, _, _, _ => none) from fun c1 c2 c3 c4 X => rfl]
      rw [b64CharVal_b64Char _ (by omega), b64CharVal_b64Char _ (by omega),
        b64CharVal_b64Char _ (by omega), b64CharVal_b64Char _ (by omega)]
      dsimp only
      rw [show b1 / 4 * 4 + (b1 % 4 * 16 + b2 / 16) / 16 = b1 from by omega]
      rw [show (b1 % 4 * 16 + b2 / 16) % 16 * 16 + (b2 % 16 * 4 + b3 / 64) / 4 = b2
        from by omega]
      rw [show (b2 % 16 * 4 + b3 / 64) % 4 * 64 + b3 % 64 = b3 from by omega]
      rfl

/-!
Ingredient-list and payload round trips, and the full codec chain.
-/

theorem commaBlocks_len (t : List IngredientPayload) :
    t.length ≤ ((t.map (fun j => ',' :: printIngredient j)).flatten).length := by
  induction t with
  | nil => simp
  | cons j u ih =>
      simp only [List.map_cons, List.flatten_cons, List.length_append, List.length_cons]
      omega

theorem printIngList_len (l : List IngredientPayload) :
    l.length ≤ (printIngList l).length := by
  cases l with
  | nil => simp [printIngList]
  | cons i t =>
      rw [printIngList]
      simp only [List.length_cons, List.length_append]
      have h2 := commaBlocks_len t
      have h1 : 1 ≤ (printIngredient i).length := by
        rw [printIngredient]; simp only [List.length_cons]; omega
      omega

theorem parseIngListTail_print (r : List Char) :
    ∀ (t : List IngredientPayload) (fuel : Nat), t.length ≤ fuel →
    (∀ i ∈ t, DecOK i.protein ∧ DecOK i.fat ∧ DecOK i.net_carbs ∧ DecOK i.servings) →
    parseIngListTail fuel ((t.map (fun j => ',' :: printIngredient j)).flatten ++ (']' :: r))
      = some (t, r)
  | [], fuel => fun _ _ => by
      simp only [List.map_nil, List.flatten_nil, List.nil_append]
      cases fuel <;> rfl
  | j :: u, fuel => fun hf hd => by
      obtain ⟨n, rfl⟩ : ∃ n, fuel = n + 1 :=
        ⟨fuel - 1, by simp only [List.length_cons] at hf; omega⟩
      obtain ⟨d1, d2, d3, d4⟩ := hd j (List.mem_cons_self j u)
      simp only [List.map_cons, List.flatten_cons, List.cons_append, List.append_assoc]
      have step : parseIngListTail (n + 1) (',' :: (printIngredient j ++
          ((u.map (fun j => ',' :: printIngredient j)).flatten ++ (']' :: r))))
          = (parseIngredient (printIngredient j ++
              ((u.map (fun j => ',' :: printIngredient j)).flatten ++ (']' :: r)))).bind
            (fun ir => (parseIngListTail n ir.2).bind
              (fun rr => some (ir.1 :: rr.1, rr.2))) := rfl
      rw [step]
      rw [parseIngredient_print j d1 d2 d3 d4]
      simp only [Option.bind_eq_bind, Option.some_bind]
      rw [parseIngListTail_print r u n
        (by simp only [List.length_cons] at hf; omega)
        (fun x hx => hd x (List.mem_cons_of_mem j hx))]
      simp only [Option.some_bind]

theorem parseIngList_close (fuel : Nat) (r : List Char) :
    parseIngList fuel (']' :: r) = some ([], r) := rfl

theorem parseIngList_open (fuel : Nat) (x : List Char) :
    parseIngList fuel ('{' :: x)
      = (parseIngredient ('{' :: x)).bind
        (fun ir => (parseIngListTail fuel ir.2).bind
          (fun rr => some (ir.1 :: rr.1, rr.2))) := rfl

theorem parseIngList_print (l : List IngredientPayload) (fuel : Nat) (r : List Char)
    (hf : l.length ≤ fuel)
    (hd : ∀ i ∈ l, DecOK i.protein ∧ DecOK i.fat ∧ DecOK i.net_carbs ∧ DecOK i.servings) :
    parseIngList fuel (printIngList l ++ (']' :: r)) = some (l, r) := by
  cases l with
  | nil => rw [printIngList, List.nil_append, parseIngList_close]
  | cons i t =>
      obtain ⟨d1, d2, d3, d4⟩ := hd i (List.mem_cons_self i t)
      rw [printIngList, List.append_assoc]
      obtain ⟨tl, htl⟩ : ∃ tl, printIngredient i = '{' :: tl := ⟨_, rfl⟩
      rw [htl, List.cons_append, parseIngList_open, ← List.cons_append, ← htl]
      rw [parseIngredient_print i d1 d2 d3 d4]
      simp only [Option.bind_eq_bind, Option.some_bind]
      rw [parseIngListTail_print r t fuel
        (by simp only [List.length_cons] at hf; omega)
        (fun x hx => hd x (List.mem_cons_of_mem i hx))]
      simp only [Option.some_bind]

theorem parsePayload_print (nm : Option String) (l : List IngredientPayload)
    (hd : ∀ i ∈ l, DecOK i.protein ∧ DecOK i.fat ∧ DecOK i.net_carbs ∧ DecOK i.servings) :
    parsePayload (printPayload ⟨nm, l⟩) = some ⟨nm, l⟩ := by
  have hfuel : l.length ≤ (printIngList l ++ (']' :: ['\x7d'])).length + 1 := by
    have := printIngList_len l
    simp only [List.length_append]
    omega
  cases nm with
  | none =>
      have hsh : printPayload ⟨none, l⟩ = ('{' :: "\"name\":".data) ++
          ('n' :: 'u' :: 'l' :: 'l' ::
            (",\"ingredients\":[".data ++ (printIngList l ++ (']' :: ['\x7d'])))) := by
        simp [printPayload]
      rw [hsh]
      unfold parsePayload
      rw [expectChars_append]
      simp only [Option.bind_eq_bind, Option.some_bind]
      rw [show parseNameField ('n' :: 'u' :: 'l' :: 'l' ::
          (",\"ingredients\":[".data ++ (printIngList l ++ (']' :: ['\x7d']))))
        = some (none, ",\"ingredients\":[".data ++ (printIngList l ++ (']' :: ['\x7d'])))
        from rfl]
      simp only [Option.some_bind]
      rw [expectChars_append]
      simp only [Option.some_bind]
      rw [parseIngList_print l _ ['\x7d'] hfuel hd]
      simp only [Option.some_bind]
      rw [show expectChars ['\x7d'] ['\x7d'] = some [] from rfl]
      simp only [Option.some_bind]
      rfl
  | some s =>
      have hsh : printPayload ⟨some s, l⟩ = ('{' :: "\"name\":".data) ++
          (printJsonString s ++
            (",\"ingredients\":[".data ++ (printIngList l ++ (']' :: ['\x7d'])))) := by
        simp [printPayload]
      rw [hsh]
      unfold parsePayload
      rw [expectChars_append]
      simp only [Option.bind_eq_bind, Option.some_bind]
      obtain ⟨tl, htl⟩ : ∃ tl, printJsonString s = '"' :: tl := ⟨_, rfl⟩
      rw [htl, List.cons_append]
      rw [show ∀ x, parseNameField ('"' :: x)
        = (parseJsonString ('"' :: x)).map (fun pr => (some pr.1, pr.2)) from fun x => rfl]
      rw [← List.cons_append, ← htl, parseJsonString_print]
      simp only [Option.map_some', Option.some_bind]
      rw [expectChars_append]
      simp only [Option.some_bind]
      rw [parseIngList_print l _ ['\x7d'] hfuel hd]
      simp only [Option.some_bind]
      rw [show expectChars ['\x7d'] ['\x7d'] = some [] from rfl]
      simp only [Option.some_bind]
      rfl

theorem decode_encode_chain (ings : List Ingredient) (name : String) :
    (encode_recipe ings name).bind decode_recipe
      = some ⟨if (trimChars name.data).isEmpty then none else some ⟨trimChars name.data⟩,
              ings.map ingredientToPayload⟩ := by
  show decode_recipe ⟨b64encode (utf8Encode (printPayload
    ⟨if (trimChars name.data).isEmpty then none else some ⟨trimChars name.data⟩,
     ings.map ingredientToPayload⟩))⟩ = _
  unfold decode_recipe
  simp only [Option.bind_eq_bind]
  rw [b64decode_encode _ (utf8Encode_lt _)]
  simp only [Option.some_bind]
  rw [utf8Decode_encode]
  simp only [Option.some_bind]
  exact parsePayload_print _ _ (fun i hi => by
    simp only [List.mem_map] at hi
    obtain ⟨j, _, rfl⟩ := hi
    exact ⟨parse_quantity_DecOK _, parse_quantity_DecOK _, parse_quantity_DecOK _,
      parse_quantity_DecOK _⟩)

/-- C1 (corrected): `decode ∘ encode` always succeeds and round-trips the
numeric content — every decoded ingredient's text fields equal
`format_input_value (parse_quantity original)`, the empty string below the
0.005 threshold and the 2-decimal rendering otherwise — but the recipe
name round-trips to its *trimmed* form, not verbatim: the decoded name is
absent when the trimmed name is empty and the trimmed name otherwise. -/
theorem codec_roundtrip_spec (ings : List Ingredient) (name : String) :
    ∃ tok, encode_recipe ings name = some tok ∧
      ∃ p, decode_recipe tok = some p ∧
        p.name = (if (trimChars name.data).isEmpty then none
          else some ⟨trimChars name.data⟩) ∧
        p.ingredients.map ingredientOfPayload = ings.map (fun i =>
          ⟨i.id, i.name, format_input_value (parse_quantity i.protein),
           format_input_value (parse_quantity i.fat),
           format_input_value (parse_quantity i.net_carbs),
           format_input_value (parse_quantity i.servings)⟩) := by
  refine ⟨⟨b64encode (utf8Encode (printPayload
      ⟨if (trimChars name.data).isEmpty then none else some ⟨trimChars name.data⟩,
       ings.map ingredientToPayload⟩))⟩, rfl,
    ⟨if (trimChars name.data).isEmpty then none else some ⟨trimChars name.data⟩,
     ings.map ingredientToPayload⟩, ?_, rfl, ?_⟩
  · exact decode_encode_chain ings name
  · simp only [List.map_map]
    rfl

/-- C1 counterexample: the name `" a "` is non-empty, yet it does not
round-trip verbatim — the codec trims it to `"a"` on encode. -/
theorem codec_name_trim_cex :
    (encode_recipe [] " a ").bind decode_recipe = some ⟨some "a", []⟩
      ∧ (" a " : String) ≠ "" ∧ (" a " : String) ≠ "a" :=
  ⟨rfl, by decide, by decide⟩

/-- C5: the ledger is never empty — removing the only row atomically
re-inserts one fresh empty row (empty name and macro fields, servings "1")
under the freshly minted id `nextId`, an id no existing row carries, and
bumps the counter; and a decoded payload with an empty ingredient list
seeds one empty ingredient with id 0. -/
theorem ledger_never_empty_spec (st : LedgerState) (i : Ingredient)
    (hitems : st.items = [i]) (hinv : ∀ j ∈ st.items, j.id < st.nextId)
    (p : RecipePayload) (hp : p.ingredients = []) :
    remove_ingredient st i.id = ⟨[Ingredient.empty st.nextId], st.nextId + 1⟩ ∧
    (∀ j ∈ st.items, j.id ≠ st.nextId) ∧
    ingredientsFromPayload p = [Ingredient.empty 0] := by
  refine ⟨?_, fun j hj => Nat.ne_of_lt (hinv j hj), ?_⟩
  · have hfil : [i].filter (fun item => item.id != i.id) = [] := by
      simp [List.filter_cons]
    rw [remove_ingredient, hitems, hfil]
    rfl
  · rw [ingredientsFromPayload, hp]
    rfl

/-- C5 witness: removing the only row of the one-row ledger with id 0 and
counter 1 leaves exactly the fresh row with the unused id 1; the empty
payload seeds id 0. -/
theorem ledger_never_empty_witness :
    remove_ingredient ⟨[Ingredient.empty 0], 1⟩ 0 = ⟨[Ingredient.empty 1], 2⟩ ∧
    (∀ j ∈ (⟨[Ingredient.empty 0], 1⟩ : LedgerState).items, j.id ≠ 1) ∧
    ingredientsFromPayload ⟨none, []⟩ = [Ingredient.empty 0] :=
  ledger_never_empty_spec ⟨[Ingredient.empty 0], 1⟩ (Ingredient.empty 0) rfl
    (by decide) ⟨none, []⟩ rfl

/-- C7: decoding never fails the caller — a token that is not valid
padding-free base64url (such as `"not-valid-base64!!"`) decodes to `none`,
whatever fails inside the base64 step yields `none`, and on any failing
load the `App` fallback seeds one empty ingredient with id 0 and an empty
recipe name. -/
theorem decode_error_fallback_spec :
    decode_recipe "not-valid-base64!!" = none ∧
    app_initial_state "#recipe=not-valid-base64!!" = ([Ingredient.empty 0], "") ∧
    (∀ t : String, b64decode t.data = none → decode_recipe t = none) ∧
    (∀ h : String, load_recipe_from_url h = none →
      app_initial_state h = ([Ingredient.empty 0], "")) := by
  refine ⟨rfl, rfl, ?_, ?_⟩
  · intro t ht
    unfold decode_recipe
    rw [ht]
    rfl
  · intro h hh
    rw [app_initial_state, hh]
    rfl

/-- C7 witness: the one-symbol token `"!"` is rejected by the base64
decoder, so `decode_recipe` returns `none` on it. -/
theorem decode_error_fallback_witness : decode_recipe "!" = none :=
  decode_error_fallback_spec.2.2.1 "!" rfl

/-!
The two-decimal rendering of a whole number parses back exactly, and a
decoded token can overflow the totals.
-/

theorem dropWhile_eq_self_of_all (p : Char → Bool) :
    ∀ l : List Char, (∀ c ∈ l, p c = false) → l.dropWhile p = l
  | [] => fun _ => rfl
  | c :: t => fun h => by
      rw [List.dropWhile_cons, h c (List.mem_cons_self c t)]
      simp

theorem trimChars_no_ws (cs : List Char) (h : ∀ c ∈ cs, c.isWhitespace = false) :
    trimChars cs = cs := by
  rw [trimChars]
  rw [dropWhile_eq_self_of_all _ cs h]
  rw [dropWhile_eq_self_of_all _ cs.reverse (fun c hc => h c (List.mem_reverse.mp hc))]
  exact List.reverse_reverse cs

theorem digitChar_not_ws : ∀ d < 10, (digitChar d).isWhitespace = false := by decide

theorem digitsBE_not_ws (n : Nat) : ∀ c ∈ digitsBE n, c.isWhitespace = false := by
  intro c hc
  rw [digitsBE] at hc
  split at hc
  · simp at hc
    subst hc
    decide
  · simp only [List.mem_map, List.mem_reverse] at hc
    obtain ⟨d, hd, rfl⟩ := hc
    exact digitChar_not_ws d (Nat.digits_lt_base (by norm_num) hd)

theorem digitChar_toLower : ∀ d < 10, (digitChar d).toLower = digitChar d := by decide

theorem digitsBE_toLower (n : Nat) : (digitsBE n).map Char.toLower = digitsBE n := by
  rw [digitsBE]
  split
  · decide
  · rw [List.map_map]
    apply List.map_congr_left
    intro d hd
    show Char.toLower (digitChar d) = digitChar d
    exact digitChar_toLower d (Nat.digits_lt_base (by norm_num) (List.mem_reverse.mp hd))

theorem parseSign_no_sign (l : List Char) (h : headIsDigit l = true) :
    parseSign l = (false, l) := by
  cases l with
  | nil => simp [headIsDigit] at h
  | cons c t =>
      simp only [headIsDigit] at h
      rw [parseSign.eq_def]
      split
      · next heq =>
          injection heq with h1 _
          rw [h1] at h
          exact absurd h (by decide)
      · next heq =>
          injection heq with h1 _
          rw [h1] at h
          exact absurd h (by decide)
      · rfl

theorem rndHalfEven_nat (n : ℕ) : rndHalfEven ((n : ℚ)) = (n : ℤ) := by
  simp only [rndHalfEven, Int.floor_natCast]
  push_cast
  norm_num

theorem fmt2Rat_nat (n : ℕ) : fmt2Rat ((n : ℚ)) = digitsBE n ++ '.' :: ['0', '0'] := by
  simp only [fmt2Rat]
  rw [abs_of_nonneg (by positivity : (0 : ℚ) ≤ ((n : ℚ)))]
  rw [show ((n : ℚ)) * 100 = (((n * 100 : ℕ)) : ℚ) from by push_cast; ring]
  rw [rndHalfEven_nat (n * 100)]
  rw [Int.toNat_natCast]
  rw [if_neg (not_lt.mpr (by positivity : (0 : ℚ) ≤ ((n : ℚ))))]
  rw [Nat.mul_div_cancel _ (by norm_num : (0 : ℕ) < 100)]
  rw [Nat.mul_mod_left]
  rfl

theorem format_input_nat (n : ℕ) (hn : 1 ≤ n) :
    format_input_value (.finite ((n : ℚ))) = ⟨digitsBE n ++ '.' :: ['0', '0']⟩ := by
  have h1 : ((F64.finite ((n : ℚ))).abs.lt (.finite (1 / 200))) = false := by
    simp only [F64.abs, F64.lt, decide_eq_false_iff_not, not_lt]
    rw [abs_of_nonneg (by positivity : (0 : ℚ) ≤ ((n : ℚ)))]
    have h2 : (1 : ℚ) ≤ ((n : ℚ)) := by exact_mod_cast hn
    linarith
  rw [format_input_value, h1]
  simp only [Bool.false_eq_true, if_false]
  show (⟨fmt2Rat ((n : ℚ))⟩ : String) = _
  rw [fmt2Rat_nat]

theorem parseF64_fmt2_nat (n : ℕ) :
    parseF64 (digitsBE n ++ '.' :: ['0', '0']) = some (.finite ((n : ℚ))) := by
  have hhead := digitsBE_head n ('.' :: ['0', '0'])
  have hlow : (digitsBE n ++ '.' :: ['0', '0']).map Char.toLower
      = digitsBE n ++ '.' :: ['0', '0'] := by
    rw [List.map_append, digitsBE_toLower]
    rfl
  simp only [parseF64]
  rw [parseSign_no_sign _ hhead]
  dsimp only
  rw [hlow]
  rw [if_neg ?hni]
  rw [if_neg ?hnn]
  rw [parseDigitsAux_run (digitsBE n) (digitsBE_all_digits n) ('.' :: ['0', '0'])
    (by decide) 0 0]
  rw [foldl_digitsBE]
  show (if 0 + (digitsBE n).length + 2 = 0 then none
      else some (F64.finite ((((n : ℚ)) * 10 ^ 2 + ((0 : ℕ) : ℚ)) / 10 ^ 2)))
    = some (.finite ((n : ℚ)))
  rw [if_neg (by omega : ¬(0 + (digitsBE n).length + 2 = 0))]
  rw [show (((n : ℚ)) * 10 ^ 2 + ((0 : ℕ) : ℚ)) / 10 ^ 2 = ((n : ℚ)) from by push_cast; ring]
  case hni =>
    rintro (heq | heq)
    · exact absurd ((digitsBE_head n ('.' :: ['0', '0'])).symm.trans
        (congrArg headIsDigit heq)) (by decide)
    · exact absurd ((digitsBE_head n ('.' :: ['0', '0'])).symm.trans
        (congrArg headIsDigit heq)) (by decide)
  case hnn =>
    intro heq
    exact absurd ((digitsBE_head n ('.' :: ['0', '0'])).symm.trans
      (congrArg headIsDigit heq)) (by decide)

theorem parse_format_nat (n : ℕ) (hn : 1 ≤ n) :
    parse_quantity (format_input_value (.finite ((n : ℚ)))) = .finite ((n : ℚ)) := by
  rw [format_input_nat n hn]
  rw [parse_quantity]
  rw [show (⟨digitsBE n ++ '.' :: ['0', '0']⟩ : String).data = digitsBE n ++ '.' :: ['0', '0']
    from rfl]
  rw [trimChars_no_ws _ ?hws]
  rw [parseF64_fmt2_nat n]
  · show F64.finite (max ((n : ℚ)) 0) = .finite ((n : ℚ))
    rw [max_eq_left (by positivity)]
  case hws =>
    intro c hc
    rcases List.mem_append.mp hc with h1 | h1
    · exact digitsBE_not_ws n c h1
    · simp only [List.mem_cons, List.mem_singleton] at h1
      rcases h1 with rfl | rfl | h1
      · decide
      · decide
      · simp at h1
        subst h1
        decide

/-- C9 counterexample: the token decoding to one ingredient with
`protein = 1e300` and `servings = 1e300` (a payload serde_json accepts)
seeds a ledger whose grand protein total overflows the `f64`
multiplication: the total is `+∞`, not a finite value. -/
theorem decoded_payload_overflow_cex :
    ∃ p, decode_recipe "eyJuYW1lIjpudWxsLCJpbmdyZWRpZW50cyI6W3siaWQiOjAsIm5hbWUiOiIiLCJwcm90ZWluIjoxZTMwMCwiZmF0IjowLCJuZXRfY2FyYnMiOjAsInNlcnZpbmdzIjoxZTMwMH1dfQ" = some p ∧
      (computeTotals (ingredientsFromPayload p)).1 = .posInf ∧
      (computeTotals (ingredientsFromPayload p)).1.isFinite = false := by
  have hZ : ((((0 : ℕ) : ℚ) * 10 ^ (0 : ℕ) + ((0 : ℕ) : ℚ)) / 10 ^ (0 : ℕ)) = 0 := by
    norm_num
  have hP : (((((1 : ℕ) : ℚ) * 10 ^ (0 : ℕ) + ((0 : ℕ) : ℚ)) / 10 ^ (0 : ℕ))
      * 10 ^ (((300 : ℕ) : ℤ))) = ((10 ^ 300 : ℕ) : ℚ) := by
    push_cast
    norm_num
  have hpos : (computeTotals (ingredientsFromPayload (⟨none, [⟨0, "",
      .finite (((((1 : ℕ) : ℚ) * 10 ^ (0 : ℕ) + ((0 : ℕ) : ℚ)) / 10 ^ (0 : ℕ))
        * 10 ^ (((300 : ℕ) : ℤ))),
      .finite ((((0 : ℕ) : ℚ) * 10 ^ (0 : ℕ) + ((0 : ℕ) : ℚ)) / 10 ^ (0 : ℕ)),
      .finite ((((0 : ℕ) : ℚ) * 10 ^ (0 : ℕ) + ((0 : ℕ) : ℚ)) / 10 ^ (0 : ℕ)),
      .finite (((((1 : ℕ) : ℚ) * 10 ^ (0 : ℕ) + ((0 : ℕ) : ℚ)) / 10 ^ (0 : ℕ))
        * 10 ^ (((300 : ℕ) : ℤ)))⟩]⟩ : RecipePayload))).1 = .posInf := by
    show (F64.finite 0).add
      ((parse_quantity (format_input_value (.finite
          (((((1 : ℕ) : ℚ) * 10 ^ (0 : ℕ) + ((0 : ℕ) : ℚ)) / 10 ^ (0 : ℕ))
            * 10 ^ (((300 : ℕ) : ℤ)))))).mul
        (parse_quantity (format_input_value (.finite
          (((((1 : ℕ) : ℚ) * 10 ^ (0 : ℕ) + ((0 : ℕ) : ℚ)) / 10 ^ (0 : ℕ))
            * 10 ^ (((300 : ℕ) : ℤ))))))) = .posInf
    rw [hP]
    rw [parse_format_nat (10 ^ 300) (Nat.one_le_pow 300 10 (by norm_num))]
    rw [mul_posOvf _ _ ?hovf]
    · rfl
    case hovf =>
      show ovfThreshold ≤ ((10 ^ 300 : ℕ) : ℚ) * ((10 ^ 300 : ℕ) : ℚ)
      rw [ovfThreshold]
      push_cast
      norm_num
  have hdec : decode_recipe "eyJuYW1lIjpudWxsLCJpbmdyZWRpZW50cyI6W3siaWQiOjAsIm5hbWUiOiIiLCJwcm90ZWluIjoxZTMwMCwiZmF0IjowLCJuZXRfY2FyYnMiOjAsInNlcnZpbmdzIjoxZTMwMH1dfQ"
      = some (⟨none, [⟨0, "",
      .finite (((((1 : ℕ) : ℚ) * 10 ^ (0 : ℕ) + ((0 : ℕ) : ℚ)) / 10 ^ (0 : ℕ))
        * 10 ^ (((300 : ℕ) : ℤ))),
      .finite ((((0 : ℕ) : ℚ) * 10 ^ (0 : ℕ) + ((0 : ℕ) : ℚ)) / 10 ^ (0 : ℕ)),
      .finite ((((0 : ℕ) : ℚ) * 10 ^ (0 : ℕ) + ((0 : ℕ) : ℚ)) / 10 ^ (0 : ℕ)),
      .finite (((((1 : ℕ) : ℚ) * 10 ^ (0 : ℕ) + ((0 : ℕ) : ℚ)) / 10 ^ (0 : ℕ))
        * 10 ^ (((300 : ℕ) : ℤ)))⟩]⟩ : RecipePayload) := rfl
  exact ⟨_, hdec, hpos, by rw [hpos]; rfl⟩
